import Mathlib

/-
  Verification of the pycid relevance / equilibrium engine against its
  specification.  The Python sources under src/ (core/macid_base.py,
  core/macid.py, analyze/response_incentive.py) are shallowly embedded
  below; modules of the repository that are not shipped under src/
  (core/cpd.py, core/relevance_graph.py, core/cid.py,
  analyze/requisite_graph.py, core/get_paths.py) and the external pgmpy
  library are modelled from the spec where needed, and each such
  definition is marked accordingly.

  Node names are an abstract type with decidable equality (the Python
  code uses strings); concrete instances use natural numbers.  Agent
  names are natural numbers (the Python code allows ints and strings and
  uses the int 0 as a default agent).  Domain values ("state names") are
  integers.  Expected-utility evaluation delegates to the probabilistic
  inference oracle, which the spec declares an external collaborator;
  it enters the embedding as an explicit function parameter.
-/

set_option maxHeartbeats 1000000
set_option linter.unusedSectionVars false

namespace PycidV

variable {ν : Type} [DecidableEq ν]

/-- Membership of a directed edge in an edge list. -/
def hasEdge (E : List (ν × ν)) (a b : ν) : Bool :=
  decide ((a, b) ∈ E)

/-- Undirected adjacency: an edge in either direction. -/
def adjB (E : List (ν × ν)) (a b : ν) : Bool :=
  hasEdge E a b || hasEdge E b a

/-- Simple (repetition-free) paths along an abstract step relation.
`StepPath s a b p` holds when `p` lists the nodes of a path from `a` to
`b`, each step allowed by `s`, with no node visited twice. -/
inductive StepPath (s : ν → ν → Bool) : ν → ν → List ν → Prop
  | single (a : ν) : StepPath s a a [a]
  | cons {a b c : ν} {p : List ν} :
      s a b = true → StepPath s b c p → a ∉ p → StepPath s a c (a :: p)

/-- Enumerate the simple paths from `cur` to `t` whose non-initial nodes
come from `univ` and avoid `vis`, of length at most `fuel`. -/
def stepPathsAux (s : ν → ν → Bool) (univ : List ν) (t : ν) :
    ℕ → ν → List ν → List (List ν)
  | 0, _, _ => []
  | fuel + 1, cur, vis =>
    if cur = t then [[t]]
    else
      (univ.filter (fun c => s cur c && !(decide (c ∈ vis)))).flatMap
        (fun c => (stepPathsAux s univ t fuel c (c :: vis)).map (fun p => cur :: p))

/-- Directed reachability (used for `nx.descendants` and ancestors-of-Z
tests), decided by enumerating simple directed paths. -/
def reachesB (E : List (ν × ν)) (univ : List ν) (a b : ν) : Bool :=
  !(stepPathsAux (hasEdge E) univ b (univ.length + 1) a [a]).isEmpty

/-- Collider-or-chain condition at an interior node of a candidate trail:
a collider (both path edges directed into `b`) must have `b` or a
descendant of `b` observed; any other interior node must be unobserved. -/
def interiorOKB (E : List (ν × ν)) (anz zmem : ν → Bool) (a b c : ν) : Bool :=
  if hasEdge E a b && hasEdge E c b then anz b else !(zmem b)

/-- Blocking check over a node list: every interior node of the path must
satisfy `interiorOKB` for its two neighbours. -/
def activeListB (E : List (ν × ν)) (anz zmem : ν → Bool) : List ν → Bool
  | a :: b :: c :: rest => interiorOKB E anz zmem a b c && activeListB E anz zmem (b :: c :: rest)
  | _ => true

/-- Ancestor-of-observed test for the collider condition: some observed
node is a (possibly improper) directed descendant of `b`. -/
def anzB (E : List (ν × ν)) (univ : List ν) (Z : List ν) (b : ν) : Bool :=
  Z.any (fun z => reachesB E univ b z)

/-- Observedness test. -/
def zmemB (Z : List ν) (b : ν) : Bool := decide (b ∈ Z)

/-- Modelled from the spec: pgmpy's `is_active_trail` (the external
inference library is not part of src/); per the spec an "active
(non-blocked) path" between two nodes given the observed set, with the
standard collider/chain blocking rules, decided by enumerating simple
paths. -/
def is_active_trail (E : List (ν × ν)) (univ : List ν) (x y : ν) (Z : List ν) : Bool :=
  (stepPathsAux (adjB E) univ y (univ.length + 1) x [x]).any
    (activeListB E (anzB E univ Z) (zmemB Z))

/-- Existence of an active (non-blocked) simple path from `x` to `y`
given observed set `Z`, with interior nodes drawn from `univ`. -/
def ActiveConn (E : List (ν × ν)) (univ : List ν) (Z : List ν) (x y : ν) : Prop :=
  ∃ p, StepPath (adjB E) x y p ∧ (∀ n ∈ p.tail, n ∈ univ) ∧
    activeListB E (anzB E univ Z) (zmemB Z) p = true

deriving instance DecidableEq for Except

/-- Failure values of the embedded operations (Python exceptions). -/
inductive Err (ν : Type) where
  | keyErr : ν → Err ν
  | assertFail : Err ν
  | notAgent : ℕ → Err ν
  | noDomainFor : ν → Err ν
  | noPolicyFor : ν → Err ν
  | badStateName : ν → Err ν
  | missingCpd : ν → Err ν
  | ddNonDecision : ν → Err ν
  | evidenceMismatch : ν → Err ν
  | cycleEdge : Err ν
  | noDomainImpute : ν → Err ν
  | badNodeType : ν → Err ν
deriving DecidableEq

/-- Kinds of conditional probability distributions, following the spec's
tagged-variant reading of cpd.py (which is not under src/): a
DecisionDomain placeholder, a UniformRandomCPD, or a FunctionCPD whose
function body is represented by its explicit output table. -/
inductive CpdKind where
  | dd : CpdKind
  | uniformK : CpdKind
  | fnK : List ℤ → CpdKind
deriving DecidableEq

/-- A conditional probability distribution: its variable, the variable's
state names, its evidence (dependency) list with cardinalities, and its
kind.  Numeric tables are the inference oracle's concern (out of scope
per the spec) and are not represented. -/
structure CPD (ν : Type) where
  var : ν
  dom : List ℤ
  evidence : List ν
  evidence_card : List ℕ
  kind : CpdKind
deriving DecidableEq

/-- Lookup in an association list (a Python dict). -/
def getA {α β : Type} [DecidableEq α] (l : List (α × β)) (a : α) : Option β :=
  (l.find? (fun p => decide (p.1 = a))).map (·.2)

/-- Insert-or-replace in an association list (a Python dict update). -/
def setA {α β : Type} [DecidableEq α] : List (α × β) → α → β → List (α × β)
  | [], a, b => [(a, b)]
  | p :: tl, a, b => if p.1 = a then (a, b) :: tl else p :: setA tl a b

/-- The diagram model of core/macid_base.py: graph nodes and directed
edges, the per-agent decision/utility node partition (the constructor's
`node_types` argument, whose keys are the agents), and the currently
assigned CPDs keyed by variable. -/
structure MACIDBase (ν : Type) where
  nodesL : List ν
  edges : List (ν × ν)
  node_types : List (ℕ × List ν × List ν)
  cpds : List (ν × CPD ν)
deriving DecidableEq

def MACIDBase.agents (m : MACIDBase ν) : List ℕ :=
  m.node_types.map (·.1)

/-- Decision nodes declared for one agent. -/
def decListOf (m : MACIDBase ν) (a : ℕ) : List ν :=
  ((getA m.node_types a).map (·.1)).getD []

/-- Utility nodes declared for one agent. -/
def utilListOf (m : MACIDBase ν) (a : ℕ) : List ν :=
  ((getA m.node_types a).map (·.2)).getD []

def MACIDBase.all_decision_nodes (m : MACIDBase ν) : List ν :=
  (m.node_types.flatMap (fun t => t.2.1)).dedup

def MACIDBase.all_utility_nodes (m : MACIDBase ν) : List ν :=
  (m.node_types.flatMap (fun t => t.2.2)).dedup

/-- The node-to-owner map is built agent by agent with later agents
overwriting earlier entries, so the owner of a node is the last agent
listing it. -/
def MACIDBase.whose_node (m : MACIDBase ν) (n : ν) : Option ℕ :=
  m.agents.reverse.find? (fun a => decide (n ∈ decListOf m a) || decide (n ∈ utilListOf m a))

def MACIDBase.get_parents (m : MACIDBase ν) (v : ν) : List ν :=
  (m.edges.filter (fun e => decide (e.2 = v))).map (·.1)

def MACIDBase.get_cpds (m : MACIDBase ν) (v : ν) : Option (CPD ν) :=
  getA m.cpds v

/-- Cardinality of a variable, read off its CPD's state names. -/
def MACIDBase.cardinality (m : MACIDBase ν) (v : ν) : ℕ :=
  ((m.get_cpds v).map (fun c => c.dom.length)).getD 0

/-- Endpoints occurring in an edge list (networkx auto-adds them). -/
def edgeNodes (E : List (ν × ν)) : List ν :=
  (E.flatMap (fun e => [e.1, e.2])).dedup

/-- The `MACIDBase.__init__` constructor: the node set is the edge
endpoints, and every declared decision and utility node must be a graph
node. -/
def mkMacid (edges : List (ν × ν)) (node_types : List (ℕ × List ν × List ν)) :
    Except (Err ν) (MACIDBase ν) :=
  let m : MACIDBase ν := ⟨edgeNodes edges, edges, node_types, []⟩
  match m.all_decision_nodes.find? (fun n => !(decide (n ∈ m.nodesL))) with
  | some n => .error (.badNodeType n)
  | none =>
    match m.all_utility_nodes.find? (fun n => !(decide (n ∈ m.nodesL))) with
    | some n => .error (.badNodeType n)
    | none => .ok m

def isFnK : CpdKind → Bool
  | .fnK _ => true
  | _ => false

/-- Per-CPD admissibility checks of `MACIDBase.add_cpds`: the variable
must be a node, a DecisionDomain may only sit on a decision node, and a
FunctionCPD's declared evidence must match the current graph parents as
a set. -/
def cpd_check (m : MACIDBase ν) (c : CPD ν) : Option (Err ν) :=
  if ¬ (c.var ∈ m.nodesL) then some .assertFail
  else if c.kind = .dd ∧ ¬ (c.var ∈ m.all_decision_nodes) then some (.ddNonDecision c.var)
  else if isFnK c.kind ∧ ¬ (c.evidence ⊆ m.get_parents c.var ∧ m.get_parents c.var ⊆ c.evidence)
    then some (.evidenceMismatch c.var)
  else none

/-- `MACIDBase.add_cpds`: each CPD is checked and then stored under its
variable.  The per-variable numeric table initialization performed in
topological order by the missing core/cpd.py is modelled as always
succeeding (the spec declares numeric inference an external concern), so
every checked CPD is assigned; the re-queuing of descendants after a
state-name change then re-assigns unchanged entries and is a no-op. -/
def MACIDBase.add_cpds (m : MACIDBase ν) (cs : List (CPD ν)) : Except (Err ν) (MACIDBase ν) :=
  match cs.findSome? (cpd_check m) with
  | some e => .error e
  | none => .ok { m with cpds := cs.foldl (fun acc c => setA acc c.var c) m.cpds }

/-- Modelled from the spec (cpd.py is not under src/): re-initializing a
uniform-random CPD recomputes it "against the new parent set". -/
def reinitUniform (m : MACIDBase ν) (c : CPD ν) : CPD ν :=
  { c with evidence := m.get_parents c.var,
           evidence_card := (m.get_parents c.var).map m.cardinality }

/-- networkx node insertion: already-present nodes are kept as is. -/
def addNode (ns : List ν) (u : ν) : List ν :=
  if u ∈ ns then ns else ns ++ [u]

/-- Post-insertion hook of `MACIDBase.add_edge`: if the head of the new
edge carries a uniform-random CPD, that CPD is re-added, hence
recomputed against the enlarged parent set. -/
def addEdgeHook (m1 : MACIDBase ν) (v : ν) : Except (Err ν) (MACIDBase ν) :=
  match m1.get_cpds v with
  | some c => if c.kind = .uniformK then m1.add_cpds [reinitUniform m1 c] else .ok m1
  | none => .ok m1

/-- `MACIDBase.add_edge`: pgmpy's `BayesianModel.add_edge` refuses loops
and cycle-creating edges and silently adds missing endpoints as nodes;
then the uniform-random recomputation hook runs on the edge's head. -/
def MACIDBase.add_edge (m : MACIDBase ν) (u v : ν) : Except (Err ν) (MACIDBase ν) :=
  if u = v then .error .cycleEdge
  else if reachesB m.edges m.nodesL v u then .error .cycleEdge
  else addEdgeHook
    ⟨addNode (addNode m.nodesL u) v, m.edges ++ [(u, v)], m.node_types, m.cpds⟩ v

/-- networkx/pgmpy `remove_node`: drop the node, its incident edges, and
its own CPD if any. -/
def MACIDBase.remove_node (m : MACIDBase ν) (v : ν) : MACIDBase ν :=
  { m with nodesL := m.nodesL.filter (fun n => decide (n ≠ v)),
           edges := m.edges.filter (fun e => decide (e.1 ≠ v) && decide (e.2 ≠ v)),
           cpds := m.cpds.filter (fun p => decide (p.1 ≠ v)) }

/-- `MechanismGraph`: the diagram rebuilt from its edges and agent
partition without CPDs, with an extra parentless mechanism node feeding
each node.  The source tags mechanism nodes by appending "mec" to the
name and guards against collisions; the embedding takes the tagging
function `mecf` as a parameter, and theorems assume it fresh and
injective, which is the guard's intent. -/
def mechanismGraph (mecf : ν → ν) (m : MACIDBase ν) : MACIDBase ν :=
  { nodesL := m.nodesL ++ m.nodesL.map mecf,
    edges := m.edges ++ m.nodesL.map (fun n => (mecf n, n)),
    node_types := m.node_types,
    cpds := [] }

/-- Loop body of `MACIDBase.is_r_reachable` over the decision set. -/
def rReachAux (mecf : ν → ν) (m mg : MACIDBase ν) (nodes : List ν) :
    List ν → Except (Err ν) Bool
  | [] => .ok false
  | d :: ds =>
    match m.whose_node d with
    | none => .error (.keyErr d)
    | some ag =>
      let conNodes := d :: m.get_parents d
      let utils := (utilListOf m ag).filter
        (fun u => decide (u ≠ d) && reachesB m.edges m.nodesL d u)
      if nodes.any (fun v => utils.any
          (fun u => is_active_trail mg.edges mg.nodesL (mecf v) u conNodes)) then
        .ok true
      else rReachAux mecf m mg nodes ds

/-- The diagram with its CPD table dropped: r-reachability reads only
the graph structure and the agent partition, so equal-structure diagrams
give syntactically equal tests. -/
def MACIDBase.structOnly (m : MACIDBase ν) : MACIDBase ν :=
  ⟨m.nodesL, m.edges, m.node_types, []⟩

/-- `MACIDBase.is_r_reachable`: build the mechanism graph once, then for
each decision D in the set and node V in the set, test for an active
trail from V's mechanism node to a utility node of D's owner descending
from D, given D and its parents. -/
def MACIDBase.is_r_reachable (mecf : ν → ν) (m : MACIDBase ν)
    (decisions nodes : List ν) : Except (Err ν) Bool :=
  rReachAux mecf m.structOnly (mechanismGraph mecf m) nodes decisions

/-- `MACIDBase.is_s_reachable`: assert the target is a decision node,
then delegate to r-reachability. -/
def MACIDBase.is_s_reachable (mecf : ν → ν) (m : MACIDBase ν)
    (d1 : List ν) (d2 : ν) : Except (Err ν) Bool :=
  if d2 ∈ m.all_decision_nodes then m.is_r_reachable mecf d1 [d2]
  else .error .assertFail

/-- `MACID.is_s_reachable` (the override in core/macid.py): temporarily
add a node (named `temp_par` in the source; the `tempPar` parameter
here) as a new parent of `d2` on the diagram itself, test for an active
trail from it to any utility node of `d1`'s agent given `d1` and its
parents, then remove the temporary node again, returning the answer and
the post-call diagram. -/
def macid_is_s_reachable (tempPar : ν) (m : MACIDBase ν) (d1 d2 : ν) :
    Except (Err ν) (Bool × MACIDBase ν) := do
  let m1 ← m.add_edge tempPar d2
  match m1.whose_node d1 with
  | none => .error (.keyErr d1)
  | some ag =>
    let conNodes := d1 :: m1.get_parents d1
    let b := (utilListOf m1 ag).any
      (fun u => is_active_trail m1.edges m1.nodesL tempPar u conNodes)
    .ok (b, m1.remove_node tempPar)

/-- A bare directed graph (networkx `DiGraph`): its node set is implicit
in the edge list, since `add_edge` introduces the endpoints. -/
structure DiGraph (ν : Type) where
  edgesG : List (ν × ν)
deriving DecidableEq

def DiGraph.nodesG (g : DiGraph ν) : List ν :=
  (g.edgesG.flatMap (fun e => [e.1, e.2])).dedup

/-- Loop of `MACID.strategic_rel_graph` over ordered decision pairs,
threading the diagram through the mutating s-reachability test. -/
def srgAux (tempPar : ν) : MACIDBase ν → List (ν × ν) → List (ν × ν) →
    Except (Err ν) (List (ν × ν) × MACIDBase ν)
  | m, acc, [] => .ok (acc, m)
  | m, acc, p :: ps => do
    let r ← macid_is_s_reachable tempPar m p.1 p.2
    srgAux tempPar r.2 (if r.1 then acc ++ [p] else acc) ps

/-- Ordered pairs of distinct decision nodes
(`itertools.permutations(self.all_decision_nodes, 2)`). -/
def decPairPerms (m : MACIDBase ν) : List (ν × ν) :=
  (m.all_decision_nodes ×ˢ m.all_decision_nodes).filter (fun p => decide (p.1 ≠ p.2))

/-- `MACID.strategic_rel_graph`: starting from an empty digraph, add the
edge D → D2 for each ordered pair of distinct decision nodes with D2
s-reachable from D. -/
def strategic_rel_graph (tempPar : ν) (m : MACIDBase ν) :
    Except (Err ν) (DiGraph ν × MACIDBase ν) := do
  let r ← srgAux tempPar m [] (decPairPerms m)
  .ok (⟨r.1⟩, r.2)

/-- Modelled from the spec: core/relevance_graph.py is not under src/.
Per the spec's build step, the relevance graph over a chosen decision
subset has the edge D → D2, for each ordered pair of distinct decisions
of the subset, exactly when D2 is s-reachable from D; `sreach` is the
diagram's s-reachability test (the dynamic-dispatch target). -/
def relevance_edges (sreach : ν → ν → Bool) (ds : List ν) : List (ν × ν) :=
  ((ds ×ˢ ds).filter (fun p => decide (p.1 ≠ p.2))).filter (fun p => sreach p.1 p.2)

/-- Modelled from the spec: the relevance graph's acyclicity check — no
edge closes a directed cycle. -/
def relevance_acyclic (sreach : ν → ν → Bool) (ds : List ν) : Bool :=
  let E := relevance_edges sreach ds
  !(E.any (fun e => reachesB E ds e.2 e.1))

/-- Single-decision s-reachability through `MACIDBase.is_s_reachable`,
exceptions collapsed to `false` (for decision arguments the call never
raises, every decision node having an owner). -/
def base_sreach (mecf : ν → ν) (m : MACIDBase ν) (d1 d2 : ν) : Bool :=
  (m.is_s_reachable mecf [d1] d2).toOption.getD false

/-- Single-decision s-reachability through the `MACID` override, the
threaded diagram dropped (the override restores the structure this test
reads) and exceptions collapsed to `false`. -/
def macid_sreach (tempPar : ν) (m : MACIDBase ν) (d1 d2 : ν) : Bool :=
  ((macid_is_s_reachable tempPar m d1 d2).toOption.map (·.1)).getD false

/-- `MACIDBase.sufficient_recall`: the Python guard `if not agent` treats
`None` and the falsy agent name `0` alike, so both select the all-agents
branch; a truthy agent name absent from the diagram raises; otherwise
only the named agent's own relevance subgraph is checked. -/
def MACIDBase.sufficient_recall (m : MACIDBase ν) (sreach : ν → ν → Bool)
    (agent : Option ℕ) : Except (Err ν) Bool :=
  match agent with
  | none => .ok (m.agents.all (fun a => relevance_acyclic sreach (decListOf m a)))
  | some a =>
    if a = 0 then .ok (m.agents.all (fun b => relevance_acyclic sreach (decListOf m b)))
    else if a ∈ m.agents then .ok (relevance_acyclic sreach (decListOf m a))
    else .error (.notAgent a)

/-- Per-decision body of the policy precondition of `MACIDBase.query`:
if the decision's mechanism node has an active trail to some query node
given the context keys, the decision must carry a CPD that is a concrete
policy, not a DecisionDomain. -/
def pcheckF (mecf : ν → ν) (m : MACIDBase ν) (queryVars contextKeys : List ν) (d : ν) :
    Option (Err ν) :=
  if queryVars.any (fun q => is_active_trail (mechanismGraph mecf m).edges
      (mechanismGraph mecf m).nodesL (mecf d) q contextKeys) then
    match m.get_cpds d with
    | none => some (.noDomainFor d)
    | some c => if c.kind = .dd then some (.noPolicyFor d) else none
  else none

/-- Policy precondition of `MACIDBase.query`: the double loop over
decisions and query nodes raising at the first offending decision. -/
def policy_check (mecf : ν → ν) (m : MACIDBase ν) (queryVars contextKeys : List ν) :
    Option (Err ν) :=
  m.all_decision_nodes.findSome? (pcheckF mecf m queryVars contextKeys)

/-- Context check of `MACIDBase.query`: each context value must be among
its variable's state names (reading the state names of a variable with
no CPD is itself an error, Python's AttributeError on None). -/
def context_check (m : MACIDBase ν) : List (ν × ℤ) → Option (Err ν)
  | [] => none
  | (v, x) :: rest =>
    match m.get_cpds v with
    | none => some (.missingCpd v)
    | some c => if x ∈ c.dom then context_check m rest else some (.badStateName v)

def MACIDBase.copy_without_cpds (m : MACIDBase ν) : Except (Err ν) (MACIDBase ν) :=
  mkMacid m.edges m.node_types

/-- `MACIDBase.copy`: rebuild the structure and re-add (hence re-check)
every assigned CPD. -/
def MACIDBase.copy (m : MACIDBase ν) : Except (Err ν) (MACIDBase ν) := do
  let mc ← m.copy_without_cpds
  if m.cpds.isEmpty then .ok mc else mc.add_cpds (m.cpds.map (·.2))

/-- `MACIDBase.intervene`: each intervened variable's CPD is replaced by
a constant FunctionCPD over its current graph parents. -/
def MACIDBase.intervene (m : MACIDBase ν) (intervention : List (ν × ℤ)) :
    Except (Err ν) (MACIDBase ν) :=
  intervention.foldlM (fun acc p =>
    acc.add_cpds [{ var := p.1, dom := [p.2], evidence := acc.get_parents p.1,
                    evidence_card := (acc.get_parents p.1).map acc.cardinality,
                    kind := .fnK [p.2] }]) m

/-- Intervention step of `MACIDBase.query`: with an intervention the
diagram is copied and intervened upon, otherwise used as is. -/
def interventionStep (m : MACIDBase ν) : Option (List (ν × ℤ)) → Except (Err ν) (MACIDBase ν)
  | some iv => do
      let c ← m.copy
      c.intervene iv
  | none => .ok m

/-- State-name collection step of `MACIDBase.query`: reading the state
names of a query variable without a CPD fails. -/
def stateNamesCheck (cid : MACIDBase ν) (queryVars : List ν) : Option (Err ν) :=
  queryVars.findSome? (fun v => if (cid.get_cpds v).isNone then some (Err.missingCpd v) else none)

/-- `MACIDBase.query` up to the delegation to the inference oracle:
check the policy precondition, check each context value against its
variable's state names, apply any intervention to a copy, and read the
query variables' state names; the numeric BeliefPropagation call is the
external oracle and is represented by returning unit. -/
def MACIDBase.query (mecf : ν → ν) (m : MACIDBase ν) (queryVars : List ν)
    (context : List (ν × ℤ)) (intervention : Option (List (ν × ℤ))) :
    Except (Err ν) Unit := do
  match policy_check mecf m queryVars (context.map (·.1)) with
  | some e => .error e
  | none =>
    match context_check m context with
    | some e => .error e
    | none => do
      let cid ← interventionStep m intervention
      match stateNamesCheck cid queryVars with
      | some e => .error e
      | none => .ok ()

/-- `MACIDBase.impute_random_decision`: replace the decision's CPD by a
uniform-random one over the same state names (raising when the decision
has no CPD to read its domain from); the uniform CPD's dependencies are
the current graph parents (modelled from the spec, cpd.py being
external). -/
def MACIDBase.impute_random_decision (m : MACIDBase ν) (d : ν) :
    Except (Err ν) (MACIDBase ν) :=
  match m.get_cpds d with
  | none => .error (.noDomainImpute d)
  | some c => m.add_cpds [{ var := d, dom := c.dom, evidence := m.get_parents d,
                            evidence_card := (m.get_parents d).map m.cardinality,
                            kind := .uniformK }]

/-- All length-`n` tuples over `xs` (`itertools.product(xs, repeat=n)`). -/
def prodRepeat (xs : List α) : ℕ → List (List α)
  | 0 => [[]]
  | n + 1 => xs.flatMap (fun x => (prodRepeat xs n).map (fun t => x :: t))

/-- Cartesian product of a list of lists (`itertools.product(*ls)`). -/
def listProd : List (List α) → List (List α)
  | [] => [[]]
  | l :: ls => l.flatMap (fun x => (listProd ls).map (fun t => x :: t))

/-- `MACIDBase.pure_decision_rules`: one FunctionCPD per assignment of a
domain value to each of the decision's parent-value combinations, the
function represented by its output table; evidence and state names are
taken from the decision's current CPD. -/
def MACIDBase.pure_decision_rules (m : MACIDBase ν) (decision : ν) :
    Except (Err ν) (List (CPD ν)) :=
  match m.get_cpds decision with
  | none => .error (.missingCpd decision)
  | some c =>
    .ok ((prodRepeat c.dom c.evidence_card.prod).map (fun fl =>
      { var := decision, dom := c.dom, evidence := c.evidence,
        evidence_card := c.evidence_card, kind := .fnK fl }))

/-- Effectful map over a decision list, collecting each decision's rule
enumeration (Python's `list(map(self.pure_decision_rules, nodes))`). -/
def mapME (f : ν → Except (Err ν) (List (CPD ν))) :
    List ν → Except (Err ν) (List (List (CPD ν)))
  | [] => .ok []
  | d :: ds => do
    let r ← f d
    let rs ← mapME f ds
    .ok (r :: rs)

/-- `MACIDBase.pure_strategies`: the cartesian product of the decisions'
pure-decision-rule enumerations. -/
def MACIDBase.pure_strategies (m : MACIDBase ν) (ds : List ν) :
    Except (Err ν) (List (List (CPD ν))) := do
  let rules ← mapME m.pure_decision_rules ds
  .ok (listProd rules)

def isDDOpt : Option (CPD ν) → Bool
  | some c => decide (c.kind = .dd)
  | none => false

/-- Neutralization loop of `optimal_pure_strategies`: impute a random
policy to every decision that is not s-reachable from the set and still
carries a DecisionDomain placeholder. -/
def neutralizeAux (mecf : ν → ν) (decisions : List ν) :
    MACIDBase ν → List ν → Except (Err ν) (MACIDBase ν)
  | m, [] => .ok m
  | m, d :: ds => do
    let b ← m.is_s_reachable mecf decisions d
    if !b && isDDOpt (m.get_cpds d) then do
      let m1 ← m.impute_random_decision d
      neutralizeAux mecf decisions m1 ds
    else neutralizeAux mecf decisions m ds

/-- Evaluation loop of `optimal_pure_strategies`: each strategy is
imputed on the threaded diagram and the owner's expected utility
recorded; the numeric expected utility is the external inference oracle
`eu`. -/
def evalStrategies (eu : MACIDBase ν → ℕ → ℚ) (ag : ℕ) :
    MACIDBase ν → List (List (CPD ν)) → Except (Err ν) (List ℚ)
  | _, [] => .ok []
  | m, s :: ss => do
    let m1 ← m.add_cpds s
    let rest ← evalStrategies eu ag m1 ss
    .ok (eu m1 ag :: rest)

/-- Python's `max` on a list of expected utilities (never reached on an
empty list in the source; 0 as the nominal value there). -/
def maxQ : List ℚ → ℚ
  | [] => 0
  | x :: xs => xs.foldl max x

/-- Final filter of `optimal_pure_strategies`: keep the strategies whose
expected utility equals the maximum, by exact comparison. -/
def filterByMax (ss : List (List (CPD ν))) (eus : List ℚ) : List (List (CPD ν)) :=
  ((ss.zip eus).filter (fun p => decide (p.2 = maxQ eus))).map (·.1)

/-- `MACIDBase.optimal_pure_strategies`: require the decisions to belong
to one agent, copy the diagram, neutralize the other unset decisions not
s-reachable from the set, enumerate the joint pure strategies over the
set, evaluate each, and return all maximizers. -/
def MACIDBase.optimal_pure_strategies (mecf : ν → ν) (eu : MACIDBase ν → ℕ → ℚ)
    (m : MACIDBase ν) (decisions : List ν) : Except (Err ν) (List (List (CPD ν))) :=
  match decisions with
  | [] => .ok []
  | d0 :: _ =>
    match m.whose_node d0 with
    | none => .error (.keyErr d0)
    | some ag =>
      if decisions ⊆ decListOf m ag then do
        let mc ← m.copy
        let m2 ← neutralizeAux mecf decisions mc mc.all_decision_nodes
        let strategies ← m2.pure_strategies decisions
        let eus ← evalStrategies eu ag m2 strategies
        .ok (filterByMax strategies eus)
      else .error .assertFail

/-- Modelled from the spec: `find_all_dir_paths` of core/get_paths.py is
not under src/; per the spec's words the test is whether "the reduced
graph has a directed path X → D". -/
def has_dir_path (g : DiGraph ν) (a b : ν) : Bool :=
  reachesB g.edgesG g.nodesG a b

/-- `admits_ri` of analyze/response_incentive.py.  The requisite graph
is built by analyze/requisite_graph.py, which is not under src/ and
which the spec calls an external collaborator concept; it enters as the
function parameter `reqGraph`.  `sreach` is the s-reachability dispatch
used by `sufficient_recall`. -/
def admits_ri (reqGraph : MACIDBase ν → DiGraph ν) (sreach : ν → ν → Bool)
    (m : MACIDBase ν) (decision node : ν) : Except (Err ν) Bool := do
  if 1 < m.agents.length then .error .assertFail
  else if ¬ (node ∈ m.nodesL) then .error (.keyErr node)
  else if ¬ (decision ∈ m.nodesL) then .error (.keyErr decision)
  else do
    let sr ← m.sufficient_recall sreach none
    if ¬ (sr = true) then .error .assertFail
    else if node = decision then .ok false
    else .ok (has_dir_path (reqGraph m) node decision)

/-- Policy-precondition failures among the error values. -/
def isPolicyErr : Err ν → Bool
  | .noDomainFor _ => true
  | .noPolicyFor _ => true
  | _ => false

/-- Mechanism-node tag for concrete diagrams over natural-number node
names: shift by 100 (fresh for all examples below). -/
def mec100 (n : ℕ) : ℕ := n + 100

/-- Concrete diagram exhibiting the `sufficient_recall` agent-0 bug:
agent 0 owns the single decision 0; agent 1 owns decisions 1 and 2 and
the utility 3; edges 0 → 3, 1 → 3, 2 → 3.  Agent 1's two decisions are
mutually s-reachable, so agent 1's own relevance graph is cyclic, while
agent 0's is trivially acyclic. -/
def exC3 : MACIDBase ℕ :=
  ⟨edgeNodes [(0, 3), (1, 3), (2, 3)], [(0, 3), (1, 3), (2, 3)],
    [(0, ([0], [])), (1, ([1, 2], [3]))], []⟩

/-- Minimal single-agent diagram: decision 0 feeding utility 1, domain
declared for the decision. -/
def exMin : MACIDBase ℕ :=
  ⟨edgeNodes [(0, 1)], [(0, 1)], [(0, ([0], [1]))], []⟩

/-- Single-agent diagram without sufficient recall: decisions 0 and 1
both feed utility 2, with no information links between them. -/
def exC7 : MACIDBase ℕ :=
  ⟨edgeNodes [(0, 2), (1, 2)], [(0, 2), (1, 2)], [(0, ([0, 1], [2]))], []⟩

/-- One binary decision (node 0) with no parents, feeding utility 1. -/
def exBin : MACIDBase ℕ :=
  ⟨edgeNodes [(0, 1)], [(0, 1)], [(0, ([0], [1]))],
    [(0, ⟨0, [0, 1], [], [], .dd⟩)]⟩

/-- One binary decision (node 1) with one binary parent (node 0),
feeding utility 2. -/
def exBinP : MACIDBase ℕ :=
  ⟨edgeNodes [(0, 1), (1, 2)], [(0, 1), (1, 2)], [(0, ([1], [2]))],
    [(1, ⟨1, [0, 1], [0], [2], .dd⟩)]⟩

/-- The boolean computed by `MACID.is_s_reachable` once the temporary
parent edge is in place, as a pure function of the original diagram:
any utility node of the deciding agent with an active trail from the
temporary parent given `d1` and its (post-insertion) parents. -/
def macid_sreach_val (tempPar : ν) (m : MACIDBase ν) (d1 d2 : ν) (ag : ℕ) : Bool :=
  (utilListOf m ag).any (fun u => is_active_trail (m.edges ++ [(tempPar, d2)])
    (m.nodesL ++ [tempPar]) tempPar u
    (d1 :: (((m.edges ++ [(tempPar, d2)]).filter (fun e => decide (e.2 = d1))).map (·.1))))

/-- Diagram containing a pre-existing node with the temporary parent's
name (the source's `temp_par` collision): node 100 plays that role and
feeds the utility 2; decisions 0 and 1 also feed it. -/
def exC5 : MACIDBase ℕ :=
  ⟨edgeNodes [(100, 2), (0, 2), (1, 2)], [(100, 2), (0, 2), (1, 2)],
    [(0, ([0, 1], [2]))], []⟩

/-- The uniform-random policy `impute_random_decision` assigns, expressed
against the original diagram (neutralization preserves every variable's
domain, hence every cardinality). -/
def mkUniformCpd (m : MACIDBase ν) (v : ν) (c : CPD ν) : CPD ν :=
  ⟨v, c.dom, m.get_parents v, (m.get_parents v).map m.cardinality, .uniformK⟩

/-- Impute a strategy's decision rules onto a CPD table (the
`add_cpds(*strategy)` update, keyed by each rule's variable). -/
def applyS (cps : List (ν × CPD ν)) (s : List (CPD ν)) : List (ν × CPD ν) :=
  s.foldl (fun acc c => setA acc c.var c) cps

/-- Last rule in a strategy for a given variable (later stores overwrite
earlier ones). -/
def lastVar (s : List (CPD ν)) (a : ν) : Option (CPD ν) :=
  s.foldl (fun acc c => if c.var = a then some c else acc) none

/-- Pointwise effect of imputing a strategy on one stored table entry. -/
def substS (s : List (CPD ν)) (p : ν × CPD ν) : ν × CPD ν :=
  match lastVar s p.1 with
  | some c => (p.1, c)
  | none => p

/-- Diagram for claim C1: agent 0 owns decisions 0 and 2 and utility 1;
decision 0 feeds the utility and still carries its DecisionDomain
placeholder, while decision 2 feeds only the chance node 3 and already
carries a concrete (function) policy. -/
def exC1 : MACIDBase ℕ :=
  ⟨edgeNodes [(0, 1), (2, 3)], [(0, 1), (2, 3)], [(0, ([0, 2], [1]))],
    [(0, ⟨0, [0, 1], [], [], .dd⟩), (2, ⟨2, [0, 1], [], [], .fnK [0]⟩)]⟩

/-- The claim's r-reachability predicate, read off its words: some
decision D in the set and node V in the set such that a single
hypothetical new parent of V (named by `mecf`) has an active path to a
utility node of D's owning agent that is a descendant of D, conditioning
on D and D's current parents. -/
def RReachSpec (mecf : ν → ν) (m : MACIDBase ν) (decisions nodes : List ν) : Prop :=
  ∃ d ∈ decisions, ∃ ag, m.whose_node d = some ag ∧ ∃ v ∈ nodes,
    ∃ u ∈ utilListOf m ag, u ≠ d ∧ reachesB m.edges m.nodesL d u = true ∧
      ActiveConn (m.edges ++ [(mecf v, v)]) (m.nodesL ++ [mecf v])
        (d :: m.get_parents d) (mecf v) u

/-- Diagram for claim C2: agent 0 owns decisions 0 and 1 and utility 2;
decision 0 feeds only the chance node 3, decision 1 feeds the utility.
No utility node is a descendant of decision 0. -/
def exC2 : MACIDBase ℕ :=
  ⟨edgeNodes [(0, 3), (1, 2)], [(0, 3), (1, 2)], [(0, ([0, 1], [2]))], []⟩

theorem StepPath.head_shape {s : ν → ν → Bool} {a b : ν} {p : List ν}
    (h : StepPath s a b p) : ∃ q, p = a :: q := by
  cases h with
  | single a => exact ⟨[], rfl⟩
  | cons hs hp hn => exact ⟨_, rfl⟩

theorem StepPath.last_mem {s : ν → ν → Bool} {a b : ν} {p : List ν}
    (h : StepPath s a b p) : b ∈ p := by
  induction h with
  | single a => simp
  | cons hs hp hn ih => simp [ih]

theorem StepPath.nodup {s : ν → ν → Bool} {a b : ν} {p : List ν}
    (h : StepPath s a b p) : p.Nodup := by
  induction h with
  | single a => simp
  | cons hs hp hn ih => simpa [List.nodup_cons, hn] using ih

theorem StepPath.mem_step {s : ν → ν → Bool} {a b : ν} {p : List ν}
    (h : StepPath s a b p) : ∀ x ∈ p, x = a ∨ ∃ y, s y x = true := by
  induction h with
  | single a => intro x hx; simp at hx; exact Or.inl hx
  | cons hs hp hn ih =>
    intro x hx
    rcases List.mem_cons.mp hx with h1 | h2
    · exact Or.inl h1
    · rcases ih x h2 with h3 | h4
      · subst h3; exact Or.inr ⟨_, hs⟩
      · exact Or.inr h4

theorem stepPathsAux_sound {s : ν → ν → Bool} {univ : List ν} {t : ν} :
    ∀ {fuel : ℕ} {cur : ν} {vis : List ν} {p : List ν}, cur ∈ vis →
      p ∈ stepPathsAux s univ t fuel cur vis →
      StepPath s cur t p ∧ ∀ x ∈ p.tail, x ∈ univ ∧ x ∉ vis := by
  intro fuel
  induction fuel with
  | zero => intro cur vis p _ hp; simp [stepPathsAux] at hp
  | succ f ih =>
    intro cur vis p hcur hp
    by_cases hct : cur = t
    · subst hct
      simp [stepPathsAux] at hp
      subst hp
      exact ⟨StepPath.single cur, by simp⟩
    · simp only [stepPathsAux, if_neg hct, List.mem_flatMap, List.mem_filter,
        List.mem_map, Bool.and_eq_true, Bool.not_eq_true', decide_eq_false_iff_not] at hp
      obtain ⟨c, ⟨hcu, hsc, hcv⟩, q, hq, hpq⟩ := hp
      have hrec := ih (List.mem_cons_self c vis) hq
      obtain ⟨hpath, htail⟩ := hrec
      obtain ⟨q2, hq2⟩ := hpath.head_shape
      have hcurq : cur ∉ q := by
        intro hmem
        rw [hq2] at hmem
        rcases List.mem_cons.mp hmem with h1 | h2
        · exact hcv (h1 ▸ hcur)
        · have := htail cur (by rw [hq2]; simpa using h2)
          exact this.2 (List.mem_cons_of_mem c hcur)
      refine ⟨?_, ?_⟩
      · rw [← hpq]
        exact StepPath.cons hsc hpath hcurq
      · intro x hx
        rw [← hpq] at hx
        simp only [List.tail_cons] at hx
        rw [hq2] at hx
        rcases List.mem_cons.mp hx with h1 | h2
        · exact ⟨h1 ▸ hcu, h1 ▸ hcv⟩
        · have := htail x (by rw [hq2]; simpa using h2)
          exact ⟨this.1, fun hv => this.2 (List.mem_cons_of_mem c hv)⟩

theorem stepPathsAux_complete {s : ν → ν → Bool} {univ : List ν} {t : ν}
    {p : List ν} {cur : ν} (h : StepPath s cur t p) :
    ∀ {vis : List ν} {fuel : ℕ}, (∀ x ∈ p.tail, x ∈ univ ∧ x ∉ vis) →
      p.length ≤ fuel → p ∈ stepPathsAux s univ t fuel cur vis := by
  induction h with
  | single a =>
    intro vis fuel _ hlen
    match fuel with
    | 0 => simp at hlen
    | f + 1 => simp [stepPathsAux]
  | @cons a b c q hs hq hn ih =>
    intro vis fuel htail hlen
    match fuel with
    | 0 => simp at hlen
    | f + 1 =>
      have hat : a ≠ c := fun h => hn (h ▸ hq.last_mem)
      obtain ⟨q2, hq2⟩ := hq.head_shape
      have hbq : b ∈ q := by rw [hq2]; simp
      have hb := htail b (by simpa using hbq)
      simp only [stepPathsAux, if_neg hat, List.mem_flatMap, List.mem_filter,
        List.mem_map, Bool.and_eq_true, Bool.not_eq_true', decide_eq_false_iff_not]
      refine ⟨b, ⟨hb.1, hs, hb.2⟩, q, ?_, rfl⟩
      apply ih
      · intro x hx
        have hx2 : x ∈ q2 := by rw [hq2] at hx; simpa using hx
        have hxq : x ∈ q := by rw [hq2]; exact List.mem_cons_of_mem b hx2
        have := htail x (by simpa using hxq)
        refine ⟨this.1, ?_⟩
        intro hmem
        rcases List.mem_cons.mp hmem with h1 | h2
        · have : q.Nodup := hq.nodup
          rw [hq2] at this hx
          exact (List.nodup_cons.mp this).1 (h1 ▸ hx)
        · exact this.2 h2
      · have : q.length + 1 ≤ f + 1 := by simpa using hlen
        omega

theorem reachesB_iff {E : List (ν × ν)} {univ : List ν} {a b : ν}
    (hwf : ∀ e ∈ E, e.2 ∈ univ) :
    reachesB E univ a b = true ↔ ∃ p, StepPath (hasEdge E) a b p := by
  constructor
  · intro h
    have : ¬ (stepPathsAux (hasEdge E) univ b (univ.length + 1) a [a]).isEmpty := by
      simpa [reachesB] using h
    rw [List.isEmpty_iff] at this
    obtain ⟨p, hp⟩ := List.exists_mem_of_ne_nil _ this
    exact ⟨p, (stepPathsAux_sound (by simp) hp).1⟩
  · rintro ⟨p, hp⟩
    obtain ⟨q, hq⟩ := hp.head_shape
    have hnodup := hp.nodup
    have htail_univ : ∀ x ∈ p.tail, x ∈ univ := by
      intro x hx
      rcases hp.mem_step x (List.mem_of_mem_tail hx) with h1 | ⟨y, hy⟩
      · exfalso
        rw [hq] at hnodup hx
        simp only [List.tail_cons] at hx
        exact (List.nodup_cons.mp hnodup).1 (h1 ▸ hx)
      · have : (y, x) ∈ E := by simpa [hasEdge] using hy
        exact hwf (y, x) this
    have htail_nodup : p.tail.Nodup := by
      rw [hq]; exact (List.nodup_cons.mp (hq ▸ hnodup)).2
    have hlen : p.length ≤ univ.length + 1 := by
      have hsub : p.tail ⊆ univ := htail_univ
      have := (htail_nodup.subperm hsub).length_le
      rw [hq]
      simp only [List.length_cons]
      rw [hq] at this
      simp only [List.tail_cons] at this
      omega
    have hmem := @stepPathsAux_complete ν _ (hasEdge E) univ b p a hp [a] (univ.length + 1)
      (by
        intro x hx
        refine ⟨htail_univ x hx, ?_⟩
        intro hv
        simp at hv
        rw [hq] at hnodup hx
        simp only [List.tail_cons] at hx
        exact (List.nodup_cons.mp hnodup).1 (hv ▸ hx)) hlen
    have hne := List.ne_nil_of_mem hmem
    simp [reachesB, List.isEmpty_iff, hne]

theorem is_active_trail_iff {E : List (ν × ν)} {univ Z : List ν} {x y : ν} :
    is_active_trail E univ x y Z = true ↔ ActiveConn E univ Z x y := by
  constructor
  · intro h
    rw [is_active_trail, List.any_eq_true] at h
    obtain ⟨p, hp, hact⟩ := h
    have := stepPathsAux_sound (by simp) hp
    exact ⟨p, this.1, fun n hn => (this.2 n hn).1, hact⟩
  · rintro ⟨p, hp, huniv, hact⟩
    rw [is_active_trail, List.any_eq_true]
    refine ⟨p, ?_, hact⟩
    obtain ⟨q, hq⟩ := hp.head_shape
    have hnodup := hp.nodup
    have htail_nodup : p.tail.Nodup := by
      rw [hq]; exact (List.nodup_cons.mp (hq ▸ hnodup)).2
    have hlen : p.length ≤ univ.length + 1 := by
      have hsub : p.tail ⊆ univ := huniv
      have := (htail_nodup.subperm hsub).length_le
      rw [hq]
      simp only [List.length_cons]
      rw [hq] at this
      simp only [List.tail_cons] at this
      omega
    apply stepPathsAux_complete hp _ hlen
    intro n hn
    refine ⟨huniv n hn, ?_⟩
    intro hv
    simp at hv
    rw [hq] at hnodup hn
    simp only [List.tail_cons] at hn
    exact (List.nodup_cons.mp hnodup).1 (hv ▸ hn)

theorem findSomeA_none {α β : Type} {f : α → Option β} :
    ∀ {l : List α}, l.findSome? f = none ↔ ∀ a ∈ l, f a = none := by
  intro l
  induction l with
  | nil => simp
  | cons x xs ih =>
    rw [List.findSome?_cons]
    cases hfx : f x with
    | some b => simp [hfx]
    | none => simp [hfx, ih]

theorem findSomeA_some {α β : Type} {f : α → Option β} {e : β} :
    ∀ {l : List α}, l.findSome? f = some e → ∃ a ∈ l, f a = some e := by
  intro l
  induction l with
  | nil => simp
  | cons x xs ih =>
    intro h
    rw [List.findSome?_cons] at h
    cases hfx : f x with
    | some b =>
      rw [hfx] at h
      simp only [] at h
      exact ⟨x, by simp, by rw [hfx, h]⟩
    | none =>
      rw [hfx] at h
      simp only [] at h
      obtain ⟨a, ha, hfa⟩ := ih h
      exact ⟨a, by simp [ha], hfa⟩

theorem exceptBind_ok {ε α β : Type} (a : α) (f : α → Except ε β) :
    (Except.ok a >>= f) = f a := rfl

theorem prodRepeat_length {α : Type} (xs : List α) :
    ∀ n, (prodRepeat xs n).length = xs.length ^ n := by
  intro n
  induction n with
  | zero => rfl
  | succ k ih =>
    simp only [prodRepeat, List.length_flatMap, Function.comp_def, List.length_map, ih]
    rw [List.map_const', List.sum_replicate, smul_eq_mul, pow_succ]
    ring

theorem listProd_length {α : Type} :
    ∀ ls : List (List α), (listProd ls).length = (ls.map List.length).prod := by
  intro ls
  induction ls with
  | nil => rfl
  | cons l ls ih =>
    simp only [listProd, List.length_flatMap, Function.comp_def, List.length_map, ih,
      List.map_cons, List.prod_cons]
    rw [List.map_const', List.sum_replicate, smul_eq_mul]

/-- Claim C3.  The code contradicts its own docstring ("If an agent is
specified, sufficient recall is checked only for that agent"): the guard
`if not agent` treats the valid agent name 0 as unspecified, so
`sufficient_recall(0)` checks all agents.  On `exC3`, agent 0's own
relevance graph is acyclic, yet `sufficient_recall(0)` returns false
because agent 1's is cyclic. -/
theorem claim_C3_code_bug :
    exC3.sufficient_recall (macid_sreach 100 exC3) (some 0) = .ok false ∧
    relevance_acyclic (macid_sreach 100 exC3) (decListOf exC3 0) = true := by
  exact ⟨by decide, by decide⟩

/-- Claim C7 counterexample: on the single-agent diagram `exC7` without
sufficient recall, `admits_ri(0, 0)` raises instead of returning false,
so the claim fails as stated ("for every single-agent diagram"). -/
theorem claim_C7_counterexample :
    admits_ri (fun _ => (⟨[]⟩ : DiGraph ℕ)) (base_sreach mec100 exC7) exC7 0 0 =
      .error .assertFail := by
  decide

/-- Claim C7 (amended): for every single-agent diagram with sufficient
recall, and every node of it, `admits_ri(d, d)` returns false. -/
theorem claim_C7_amended (reqGraph : MACIDBase ν → DiGraph ν) (sreach : ν → ν → Bool)
    (m : MACIDBase ν) (d : ν) (hag : m.agents.length ≤ 1) (hd : d ∈ m.nodesL)
    (hsr : m.sufficient_recall sreach none = .ok true) :
    admits_ri reqGraph sreach m d d = .ok false := by
  have h1 : ¬ (1 < m.agents.length) := by omega
  simp [admits_ri, h1, hd, hsr, exceptBind_ok]

theorem claim_C7_witness :
    (exMin.agents.length ≤ 1 ∧ (0 : ℕ) ∈ exMin.nodesL ∧
      exMin.sufficient_recall (base_sreach mec100 exMin) none = .ok true) ∧
    admits_ri (fun _ => (⟨[]⟩ : DiGraph ℕ)) (base_sreach mec100 exMin) exMin 0 0 =
      .ok false :=
  ⟨⟨by decide, by decide, by decide⟩,
    claim_C7_amended (fun _ => (⟨[]⟩ : DiGraph ℕ)) (base_sreach mec100 exMin) exMin 0
      (by decide) (by decide) (by decide)⟩

/-- Claim C8: `admits_ri` returns a boolean exactly when the diagram has
at most one agent, both the node and the decision are present, and
sufficient recall holds; in every other case it raises. -/
theorem claim_C8 (reqGraph : MACIDBase ν → DiGraph ν) (sreach : ν → ν → Bool)
    (m : MACIDBase ν) (decision node : ν) :
    (∃ b, admits_ri reqGraph sreach m decision node = .ok b) ↔
      (m.agents.length ≤ 1 ∧ node ∈ m.nodesL ∧ decision ∈ m.nodesL ∧
        m.sufficient_recall sreach none = .ok true) := by
  have hsr : m.sufficient_recall sreach none =
      .ok (m.agents.all fun a => relevance_acyclic sreach (decListOf m a)) := rfl
  by_cases h1 : 1 < m.agents.length
  · constructor
    · rintro ⟨b, hb⟩
      exfalso
      simp [admits_ri, h1] at hb
    · rintro ⟨hle, -, -, -⟩
      omega
  by_cases h2 : node ∈ m.nodesL
  swap
  · constructor
    · rintro ⟨b, hb⟩
      exfalso
      simp [admits_ri, h1, h2] at hb
    · rintro ⟨-, hmem, -, -⟩
      exact absurd hmem h2
  by_cases h3 : decision ∈ m.nodesL
  swap
  · constructor
    · rintro ⟨b, hb⟩
      exfalso
      simp [admits_ri, h1, h2, h3] at hb
    · rintro ⟨-, -, hmem, -⟩
      exact absurd hmem h3
  by_cases h4 : (m.agents.all fun a => relevance_acyclic sreach (decListOf m a)) = true
  · rw [h4] at hsr
    constructor
    · intro _
      exact ⟨by omega, h2, h3, hsr⟩
    · intro _
      by_cases h5 : node = decision
      · exact ⟨false, by simp [admits_ri, h1, h2, h3, hsr, h5, exceptBind_ok]⟩
      · exact ⟨has_dir_path (reqGraph m) node decision,
          by simp [admits_ri, h1, h2, h3, hsr, h5, exceptBind_ok]⟩
  · have h4f : (m.agents.all fun a => relevance_acyclic sreach (decListOf m a)) = false := by
      simpa using h4
    rw [h4f] at hsr
    constructor
    · rintro ⟨b, hb⟩
      exfalso
      simp [admits_ri, h1, h2, h3, hsr, exceptBind_ok] at hb
    · rintro ⟨-, -, -, hok⟩
      rw [hsr] at hok
      simp at hok

/-- Claim C9: `pure_decision_rules` enumerates exactly
|domain| ^ (number of parent-value combinations) decision rules,
`pure_strategies` is the cartesian product of the per-decision
enumerations (so its size is the product of the sizes), and the two
benchmark diagrams yield exactly 2 and 4 joint pure strategies. -/
theorem claim_C9 (m : MACIDBase ν) (d : ν) (c : CPD ν) (h : m.get_cpds d = some c)
    (ds : List ν) (rss : List (List (CPD ν)))
    (hds : mapME m.pure_decision_rules ds = .ok rss) :
    (∃ rules, m.pure_decision_rules d = .ok rules ∧
        rules.length = c.dom.length ^ c.evidence_card.prod) ∧
    (m.pure_strategies ds = .ok (listProd rss) ∧
        (listProd rss).length = (rss.map List.length).prod) ∧
    Except.map List.length (exBin.pure_strategies [0]) = .ok 2 ∧
    Except.map List.length (exBinP.pure_strategies [1]) = .ok 4 := by
  refine ⟨?_, ⟨?_, ?_⟩, by decide, by decide⟩
  · refine ⟨(prodRepeat c.dom c.evidence_card.prod).map (fun fl =>
      { var := d, dom := c.dom, evidence := c.evidence, evidence_card := c.evidence_card,
        kind := CpdKind.fnK fl }), ?_, ?_⟩
    · simp [MACIDBase.pure_decision_rules, h]
    · simp [prodRepeat_length]
  · simp only [MACIDBase.pure_strategies]
    rw [hds, exceptBind_ok]
  · exact listProd_length rss

theorem claim_C9_witness :
    (exBin.get_cpds 0 = some ⟨0, [0, 1], [], [], CpdKind.dd⟩ ∧
      mapME exBin.pure_decision_rules [0] =
        .ok [[⟨0, [0, 1], [], [], CpdKind.fnK [0]⟩, ⟨0, [0, 1], [], [], CpdKind.fnK [1]⟩]]) ∧
    ((∃ rules, exBin.pure_decision_rules 0 = .ok rules ∧
        rules.length = ([(0 : ℤ), 1] : List ℤ).length ^ ([] : List ℕ).prod) ∧
      (exBin.pure_strategies [0] =
          .ok (listProd [[⟨0, [0, 1], [], [], CpdKind.fnK [0]⟩,
            ⟨0, [0, 1], [], [], CpdKind.fnK [1]⟩]]) ∧
        (listProd ([[⟨0, [0, 1], [], [], CpdKind.fnK [0]⟩,
            ⟨0, [0, 1], [], [], CpdKind.fnK [1]⟩]] : List (List (CPD ℕ)))).length =
          ([[(⟨0, [0, 1], [], [], CpdKind.fnK [0]⟩ : CPD ℕ),
            ⟨0, [0, 1], [], [], CpdKind.fnK [1]⟩]].map List.length).prod) ∧
      Except.map List.length (exBin.pure_strategies [0]) = .ok 2 ∧
      Except.map List.length (exBinP.pure_strategies [1]) = .ok 4) :=
  ⟨⟨by decide, by decide⟩, claim_C9 exBin 0 ⟨0, [0, 1], [], [], CpdKind.dd⟩ (by decide)
    [0] [[⟨0, [0, 1], [], [], CpdKind.fnK [0]⟩, ⟨0, [0, 1], [], [], CpdKind.fnK [1]⟩]]
    (by decide)⟩

theorem context_check_some {m : MACIDBase ν} {v : ν} {x : ℤ} {c : CPD ν} :
    ∀ {context : List (ν × ℤ)}, (v, x) ∈ context → m.get_cpds v = some c → x ∉ c.dom →
      ∃ e, context_check m context = some e := by
  intro context
  induction context with
  | nil => simp
  | cons p rest ih =>
    intro hmem hc hx
    obtain ⟨v0, x0⟩ := p
    rcases List.mem_cons.mp hmem with h1 | h2
    · injection h1 with hv hxv
      subst hv
      subst hxv
      exact ⟨Err.badStateName v, by simp [context_check, hc, hx]⟩
    · cases hcv : m.get_cpds v0 with
      | none => exact ⟨Err.missingCpd v0, by simp [context_check, hcv]⟩
      | some c0 =>
        by_cases hx0 : x0 ∈ c0.dom
        · obtain ⟨e, he⟩ := ih h2 hc hx
          exact ⟨e, by simp [context_check, hcv, hx0, he]⟩
        · exact ⟨Err.badStateName v0, by simp [context_check, hcv, hx0]⟩

/-- Claim C10: if any context variable is assigned a value not among its
declared state names, `query` raises an error before delegating to the
inference oracle (the embedded `query` only reaches the oracle by
returning `.ok`). -/
theorem claim_C10 (mecf : ν → ν) (m : MACIDBase ν) (queryVars : List ν)
    (context : List (ν × ℤ)) (intervention : Option (List (ν × ℤ)))
    (v : ν) (x : ℤ) (c : CPD ν) (hmem : (v, x) ∈ context)
    (hc : m.get_cpds v = some c) (hx : x ∉ c.dom) :
    ∃ e, m.query mecf queryVars context intervention = .error e := by
  cases hpol : policy_check mecf m queryVars (context.map (·.1)) with
  | some e => exact ⟨e, by simp [MACIDBase.query, hpol]⟩
  | none =>
    obtain ⟨e, he⟩ := context_check_some hmem hc hx
    exact ⟨e, by simp [MACIDBase.query, hpol, he]⟩

theorem claim_C10_witness :
    (((0 : ℕ), (5 : ℤ)) ∈ [((0 : ℕ), (5 : ℤ))] ∧
      exBin.get_cpds 0 = some ⟨0, [0, 1], [], [], CpdKind.dd⟩ ∧
      (5 : ℤ) ∉ ([0, 1] : List ℤ)) ∧
    ∃ e, exBin.query mec100 [1] [((0 : ℕ), (5 : ℤ))] none = .error e :=
  ⟨⟨by decide, by decide, by decide⟩,
    claim_C10 mec100 exBin [1] [((0 : ℕ), (5 : ℤ))] none 0 5
      ⟨0, [0, 1], [], [], CpdKind.dd⟩ (by decide) (by decide) (by decide)⟩

theorem exceptBind_err {ε α β : Type} (e : ε) (f : α → Except ε β) :
    (Except.error e >>= f : Except ε β) = .error e := rfl

theorem pcheckF_policy {mecf : ν → ν} {m : MACIDBase ν} {queryVars contextKeys : List ν}
    {d : ν} {e : Err ν} (h : pcheckF mecf m queryVars contextKeys d = some e) :
    isPolicyErr e = true := by
  unfold pcheckF at h
  split at h
  · split at h
    · injection h with h2
      subst h2
      rfl
    · split at h
      · injection h with h2
        subst h2
        rfl
      · cases h
  · cases h

theorem pcheckF_some_iff {mecf : ν → ν} {m : MACIDBase ν} {queryVars contextKeys : List ν}
    {d : ν} :
    (∃ e, pcheckF mecf m queryVars contextKeys d = some e) ↔
      ((∃ q ∈ queryVars, is_active_trail (mechanismGraph mecf m).edges
          (mechanismGraph mecf m).nodesL (mecf d) q contextKeys = true) ∧
        (m.get_cpds d = none ∨ ∃ c, m.get_cpds d = some c ∧ c.kind = CpdKind.dd)) := by
  unfold pcheckF
  by_cases htr : queryVars.any (fun q => is_active_trail (mechanismGraph mecf m).edges
      (mechanismGraph mecf m).nodesL (mecf d) q contextKeys) = true
  · rw [if_pos htr]
    rw [List.any_eq_true] at htr
    cases hcd : m.get_cpds d with
    | none => simp [htr, hcd]
    | some c =>
      by_cases hk : c.kind = CpdKind.dd
      · simp [htr, hcd, hk]
      · simp [htr, hcd, hk]
  · rw [if_neg htr]
    rw [List.any_eq_true] at htr
    simp [htr]

theorem policy_check_some_iff {mecf : ν → ν} {m : MACIDBase ν}
    {queryVars contextKeys : List ν} :
    (∃ e, policy_check mecf m queryVars contextKeys = some e ∧ isPolicyErr e = true) ↔
    (∃ d ∈ m.all_decision_nodes,
      (∃ q ∈ queryVars, is_active_trail (mechanismGraph mecf m).edges
          (mechanismGraph mecf m).nodesL (mecf d) q contextKeys = true) ∧
      (m.get_cpds d = none ∨ ∃ c, m.get_cpds d = some c ∧ c.kind = CpdKind.dd)) := by
  constructor
  · rintro ⟨e, he, -⟩
    obtain ⟨d, hd, hfd⟩ := findSomeA_some he
    exact ⟨d, hd, pcheckF_some_iff.mp ⟨e, hfd⟩⟩
  · rintro ⟨d, hd, hcond⟩
    obtain ⟨e0, he0⟩ := pcheckF_some_iff.mpr hcond
    have hne : m.all_decision_nodes.findSome? (pcheckF mecf m queryVars contextKeys) ≠ none := by
      intro hnone
      rw [findSomeA_none.mp hnone d hd] at he0
      cases he0
    obtain ⟨e, he⟩ := Option.ne_none_iff_exists'.mp hne
    obtain ⟨d2, hd2, hfd2⟩ := findSomeA_some he
    exact ⟨e, he, pcheckF_policy hfd2⟩

theorem cpd_check_not_policy {m : MACIDBase ν} {c : CPD ν} {e : Err ν}
    (h : cpd_check m c = some e) : isPolicyErr e = false := by
  unfold cpd_check at h
  split at h
  · injection h with h2
    subst h2
    rfl
  · split at h
    · injection h with h2
      subst h2
      rfl
    · split at h
      · injection h with h2
        subst h2
        rfl
      · cases h

theorem add_cpds_err {m : MACIDBase ν} {cs : List (CPD ν)} {e : Err ν}
    (h : m.add_cpds cs = .error e) : isPolicyErr e = false := by
  unfold MACIDBase.add_cpds at h
  cases hfs : cs.findSome? (cpd_check m) with
  | some e0 =>
    rw [hfs] at h
    injection h with h2
    obtain ⟨c, -, hc⟩ := findSomeA_some hfs
    exact h2 ▸ cpd_check_not_policy hc
  | none =>
    rw [hfs] at h
    cases h

theorem mkMacid_err {edges : List (ν × ν)} {nts : List (ℕ × List ν × List ν)} {e : Err ν}
    (h : mkMacid edges nts = .error e) : isPolicyErr e = false := by
  simp only [mkMacid] at h
  split at h
  · injection h with h2
    subst h2
    rfl
  · split at h
    · injection h with h2
      subst h2
      rfl
    · cases h

theorem copy_err {m : MACIDBase ν} {e : Err ν} (h : m.copy = .error e) :
    isPolicyErr e = false := by
  unfold MACIDBase.copy MACIDBase.copy_without_cpds at h
  cases hcw : mkMacid m.edges m.node_types with
  | error e1 =>
    rw [hcw, exceptBind_err] at h
    injection h with h2
    exact h2 ▸ mkMacid_err hcw
  | ok mc =>
    rw [hcw, exceptBind_ok] at h
    split at h
    · cases h
    · exact add_cpds_err h

theorem foldlM_err {α σ : Type} {step : σ → α → Except (Err ν) σ}
    (hstep : ∀ s a e, step s a = .error e → isPolicyErr e = false) :
    ∀ {l : List α} {s : σ} {e : Err ν}, l.foldlM step s = .error e → isPolicyErr e = false := by
  intro l
  induction l with
  | nil => intro s e h; cases h
  | cons x xs ih =>
    intro s e h
    rw [List.foldlM_cons] at h
    cases hs : step s x with
    | error e1 =>
      rw [hs, exceptBind_err] at h
      injection h with h2
      exact h2 ▸ hstep s x e1 hs
    | ok s1 =>
      rw [hs, exceptBind_ok] at h
      exact ih h

theorem intervene_err {m : MACIDBase ν} {iv : List (ν × ℤ)} {e : Err ν}
    (h : m.intervene iv = .error e) : isPolicyErr e = false := by
  unfold MACIDBase.intervene at h
  exact foldlM_err (fun s a e1 h1 => add_cpds_err h1) h

theorem interventionStep_err {m : MACIDBase ν} {iv : Option (List (ν × ℤ))} {e : Err ν}
    (h : interventionStep m iv = .error e) : isPolicyErr e = false := by
  cases iv with
  | none => simp [interventionStep] at h
  | some l =>
    simp only [interventionStep] at h
    cases hcp : m.copy with
    | error e1 =>
      rw [hcp, exceptBind_err] at h
      injection h with h2
      exact h2 ▸ copy_err hcp
    | ok mc =>
      rw [hcp, exceptBind_ok] at h
      exact intervene_err h

theorem stateNamesCheck_not_policy {cid : MACIDBase ν} {queryVars : List ν} {e : Err ν}
    (h : stateNamesCheck cid queryVars = some e) : isPolicyErr e = false := by
  obtain ⟨v, -, hv⟩ := findSomeA_some h
  by_cases hn : (cid.get_cpds v).isNone
  · rw [if_pos hn] at hv
    injection hv with h3
    rw [← h3]
    rfl
  · rw [if_neg hn] at hv
    cases hv

theorem context_check_not_policy {m : MACIDBase ν} :
    ∀ {ctx : List (ν × ℤ)} {e : Err ν}, context_check m ctx = some e → isPolicyErr e = false := by
  intro ctx
  induction ctx with
  | nil => intro e h; cases h
  | cons p rest ih =>
    intro e h
    obtain ⟨v0, x0⟩ := p
    unfold context_check at h
    split at h
    · injection h with h2
      subst h2
      rfl
    · split at h
      · exact ih h
      · injection h with h2
        subst h2
        rfl

theorem query_err_nonpolicy {mecf : ν → ν} {m : MACIDBase ν} {queryVars : List ν}
    {context : List (ν × ℤ)} {intervention : Option (List (ν × ℤ))} {e : Err ν}
    (hpol : policy_check mecf m queryVars (context.map (·.1)) = none)
    (h : m.query mecf queryVars context intervention = .error e) :
    isPolicyErr e = false := by
  unfold MACIDBase.query at h
  rw [hpol] at h
  cases hctx : context_check m context with
  | some e1 =>
    rw [hctx] at h
    injection h with h2
    exact h2 ▸ context_check_not_policy hctx
  | none =>
    rw [hctx] at h
    cases hcid : interventionStep m intervention with
    | error e2 =>
      rw [hcid, exceptBind_err] at h
      injection h with h2
      exact h2 ▸ interventionStep_err hcid
    | ok cid =>
      rw [hcid, exceptBind_ok] at h
      cases hfs : stateNamesCheck cid queryVars with
      | some e2 =>
        rw [hfs] at h
        injection h with h2
        exact h2 ▸ stateNamesCheck_not_policy hfs
      | none =>
        rw [hfs] at h
        cases h

/-- Claim C6: `query` fails with a policy-precondition error (missing
DecisionDomain or un-imputed policy) exactly when some decision node has
an active mechanism-graph trail into a query target conditioned on the
context and its CPD is absent or still a DecisionDomain placeholder; in
every other case no such error is raised. -/
theorem claim_C6 (mecf : ν → ν) (m : MACIDBase ν) (queryVars : List ν)
    (context : List (ν × ℤ)) (intervention : Option (List (ν × ℤ))) :
    (∃ e, m.query mecf queryVars context intervention = .error e ∧ isPolicyErr e = true) ↔
    (∃ d ∈ m.all_decision_nodes,
      (∃ q ∈ queryVars, is_active_trail (mechanismGraph mecf m).edges
          (mechanismGraph mecf m).nodesL (mecf d) q (context.map (·.1)) = true) ∧
      (m.get_cpds d = none ∨ ∃ c, m.get_cpds d = some c ∧ c.kind = CpdKind.dd)) := by
  rw [← policy_check_some_iff]
  constructor
  · rintro ⟨e, he, hpe⟩
    cases hpol : policy_check mecf m queryVars (context.map (·.1)) with
    | some e0 =>
      have hq : m.query mecf queryVars context intervention = .error e0 := by
        unfold MACIDBase.query
        rw [hpol]
      rw [hq] at he
      injection he with h2
      subst h2
      exact ⟨e0, rfl, hpe⟩
    | none =>
      exact absurd hpe (by simp [query_err_nonpolicy hpol he])
  · rintro ⟨e, hpol, hpe⟩
    refine ⟨e, ?_, hpe⟩
    unfold MACIDBase.query
    rw [hpol]

theorem addNode_pos {ns : List ν} {u : ν} (h : u ∈ ns) : addNode ns u = ns :=
  if_pos h

theorem addNode_neg {ns : List ν} {u : ν} (h : u ∉ ns) : addNode ns u = ns ++ [u] :=
  if_neg h

theorem reachesB_fresh_false {E : List (ν × ν)} {univ : List ν} {a b : ν}
    (hwf : ∀ e ∈ E, e.2 ∈ univ) (hb : b ∉ univ) (hab : a ≠ b) :
    reachesB E univ a b = false := by
  cases h2 : reachesB E univ a b
  · rfl
  · exfalso
    have h3 : ¬ (stepPathsAux (hasEdge E) univ b (univ.length + 1) a [a]).isEmpty := by
      simpa [reachesB] using h2
    rw [List.isEmpty_iff] at h3
    obtain ⟨p, hp⟩ := List.exists_mem_of_ne_nil _ h3
    have hpath := (stepPathsAux_sound (by simp) hp).1
    rcases hpath.mem_step b hpath.last_mem with h4 | ⟨y, hy⟩
    · exact hab h4.symm
    · have h5 : (y, b) ∈ E := by simpa [hasEdge] using hy
      exact hb (hwf _ h5)

theorem getA_mem {α β : Type} [DecidableEq α] {l : List (α × β)} {a : α} {b : β}
    (h : getA l a = some b) : ∃ q ∈ l, q.1 = a ∧ q.2 = b := by
  unfold getA at h
  cases hf : l.find? (fun p => decide (p.1 = a)) with
  | none => rw [hf] at h; cases h
  | some q =>
    rw [hf] at h
    injection h with h2
    refine ⟨q, List.mem_of_find?_eq_some hf, ?_, h2⟩
    have h3 := List.find?_some hf
    simpa using h3

theorem setA_mem2 {α β : Type} [DecidableEq α] {a : α} {b : β} :
    ∀ {l : List (α × β)} {q : α × β}, q ∈ setA l a b → q = (a, b) ∨ q ∈ l := by
  intro l
  induction l with
  | nil =>
    intro q hq
    unfold setA at hq
    simp at hq
    exact Or.inl hq
  | cons p tl ih =>
    intro q hq
    unfold setA at hq
    by_cases hpa : p.1 = a
    · rw [if_pos hpa] at hq
      rcases List.mem_cons.mp hq with h1 | h2
      · exact Or.inl h1
      · exact Or.inr (List.mem_cons_of_mem p h2)
    · rw [if_neg hpa] at hq
      rcases List.mem_cons.mp hq with h1 | h2
      · exact Or.inr (h1 ▸ List.mem_cons_self p tl)
      · rcases ih h2 with h3 | h4
        · exact Or.inl h3
        · exact Or.inr (List.mem_cons_of_mem p h4)

theorem addEdgeHook_none {m1 : MACIDBase ν} {v : ν} (h : m1.get_cpds v = none) :
    addEdgeHook m1 v = .ok m1 := by
  unfold addEdgeHook
  rw [h]

theorem addEdgeHook_some {m1 : MACIDBase ν} {v : ν} {c : CPD ν} (h : m1.get_cpds v = some c) :
    addEdgeHook m1 v =
      if c.kind = CpdKind.uniformK then m1.add_cpds [reinitUniform m1 c] else .ok m1 := by
  unfold addEdgeHook
  rw [h]

theorem addEdgeHook_temp {m1 : MACIDBase ν} {v : ν}
    (hvar1 : ∀ p ∈ m1.cpds, p.2.var = p.1)
    (hkey1 : ∀ p ∈ m1.cpds, p.1 ∈ m1.nodesL) :
    ∃ cp, addEdgeHook m1 v = .ok ⟨m1.nodesL, m1.edges, m1.node_types, cp⟩ ∧
      (∀ p ∈ cp, p.1 = v ∨ p ∈ m1.cpds) ∧ (∀ p ∈ cp, p.2.var = p.1) ∧
      ((¬ ∃ c, m1.get_cpds v = some c ∧ c.kind = CpdKind.uniformK) → cp = m1.cpds) := by
  cases hc : m1.get_cpds v with
  | none =>
    exact ⟨m1.cpds, addEdgeHook_none hc, fun p hp => Or.inr hp, hvar1, fun _ => rfl⟩
  | some c =>
    by_cases hk : c.kind = CpdKind.uniformK
    · rw [addEdgeHook_some hc, if_pos hk]
      obtain ⟨q, hq, hq1, hq2⟩ := getA_mem hc
      have hcv : c.var = v := by rw [← hq2, hvar1 q hq, hq1]
      have hvin : v ∈ m1.nodesL := hq1 ▸ hkey1 q hq
      have hrv : (reinitUniform m1 c).var = c.var := rfl
      have hrk : (reinitUniform m1 c).kind = c.kind := rfl
      have hcheck : cpd_check m1 (reinitUniform m1 c) = none := by
        unfold cpd_check
        rw [hrv, hrk, hcv]
        rw [if_neg (fun hcon => hcon hvin)]
        rw [if_neg (by rintro ⟨h1, -⟩; rw [hk] at h1; cases h1)]
        rw [if_neg (by rintro ⟨h1, -⟩; rw [hk] at h1; cases h1)]
      have hadd : m1.add_cpds [reinitUniform m1 c] =
          .ok ⟨m1.nodesL, m1.edges, m1.node_types,
            setA m1.cpds (reinitUniform m1 c).var (reinitUniform m1 c)⟩ := by
        unfold MACIDBase.add_cpds
        rw [show ([reinitUniform m1 c].findSome? (cpd_check m1)) = none from by
          rw [List.findSome?_cons, hcheck]; rfl]
        rfl
      rw [hadd]
      refine ⟨setA m1.cpds (reinitUniform m1 c).var (reinitUniform m1 c), rfl, ?_, ?_, ?_⟩
      · intro p hp
        rcases setA_mem2 hp with h1 | h2
        · left
          rw [h1, hrv, hcv]
        · exact Or.inr h2
      · intro p hp
        rcases setA_mem2 hp with h1 | h2
        · rw [h1]
        · exact hvar1 p h2
      · intro hnu
        exact absurd ⟨c, rfl, hk⟩ hnu
    · rw [addEdgeHook_some hc, if_neg hk]
      exact ⟨m1.cpds, rfl, fun p hp => Or.inr hp, hvar1, fun _ => rfl⟩

theorem macid_call {tempPar : ν} {m : MACIDBase ν} {d1 d2 : ν}
    (htemp : tempPar ∉ m.nodesL)
    (hwf : ∀ e ∈ m.edges, e.1 ∈ m.nodesL ∧ e.2 ∈ m.nodesL)
    (hcpd : ∀ p ∈ m.cpds, p.1 ∈ m.nodesL)
    (hvar : ∀ p ∈ m.cpds, p.2.var = p.1)
    (hd2 : d2 ∈ m.nodesL) :
    (m.whose_node d1 = none →
      macid_is_s_reachable tempPar m d1 d2 = .error (.keyErr d1)) ∧
    (∀ ag, m.whose_node d1 = some ag →
      ∃ cp, macid_is_s_reachable tempPar m d1 d2 =
          .ok (macid_sreach_val tempPar m d1 d2 ag, ⟨m.nodesL, m.edges, m.node_types, cp⟩) ∧
        (∀ p ∈ cp, p.1 ∈ m.nodesL) ∧ (∀ p ∈ cp, p.2.var = p.1) ∧
        ((¬ ∃ c, m.get_cpds d2 = some c ∧ c.kind = CpdKind.uniformK) → cp = m.cpds)) := by
  have hne : ¬ (tempPar = d2) := fun h => htemp (h ▸ hd2)
  have hd2t : d2 ≠ tempPar := fun h => htemp (h ▸ hd2)
  have hcyc : reachesB m.edges m.nodesL d2 tempPar = false :=
    reachesB_fresh_false (fun e he => (hwf e he).2) htemp hd2t
  have hm1 : addNode (addNode m.nodesL tempPar) d2 = m.nodesL ++ [tempPar] := by
    rw [addNode_neg htemp, addNode_pos (List.mem_append_left _ hd2)]
  have hAdd : m.add_edge tempPar d2 = addEdgeHook
      ⟨m.nodesL ++ [tempPar], m.edges ++ [(tempPar, d2)], m.node_types, m.cpds⟩ d2 := by
    unfold MACIDBase.add_edge
    rw [if_neg hne, if_neg (by simp [hcyc]), hm1]
  obtain ⟨cp, hhook0, hkeys, hvars, himp⟩ := @addEdgeHook_temp ν _
    ⟨m.nodesL ++ [tempPar], m.edges ++ [(tempPar, d2)], m.node_types, m.cpds⟩
    d2 hvar (fun p hp => List.mem_append_left _ (hcpd p hp))
  have hhook : addEdgeHook
      ⟨m.nodesL ++ [tempPar], m.edges ++ [(tempPar, d2)], m.node_types, m.cpds⟩ d2 =
      .ok ⟨m.nodesL ++ [tempPar], m.edges ++ [(tempPar, d2)], m.node_types, cp⟩ := hhook0
  have hcpnodes : ∀ p ∈ cp, p.1 ∈ m.nodesL := by
    intro p hp
    rcases hkeys p hp with h1 | h2
    · exact h1 ▸ hd2
    · exact hcpd p h2
  have hremove : MACIDBase.remove_node
      ⟨m.nodesL ++ [tempPar], m.edges ++ [(tempPar, d2)], m.node_types, cp⟩ tempPar =
      ⟨m.nodesL, m.edges, m.node_types, cp⟩ := by
    unfold MACIDBase.remove_node
    have e1 : (m.nodesL ++ [tempPar]).filter (fun n => decide (n ≠ tempPar)) = m.nodesL := by
      rw [List.filter_append]
      rw [List.filter_eq_self.mpr (fun x hx => by
        simp only [decide_eq_true_eq]
        exact fun h => htemp (h ▸ hx))]
      simp
    have e2 : (m.edges ++ [(tempPar, d2)]).filter
        (fun e => decide (e.1 ≠ tempPar) && decide (e.2 ≠ tempPar)) = m.edges := by
      rw [List.filter_append]
      rw [List.filter_eq_self.mpr (fun x hx => by
        simp only [Bool.and_eq_true, decide_eq_true_eq]
        exact ⟨fun h => htemp (h ▸ (hwf x hx).1), fun h => htemp (h ▸ (hwf x hx).2)⟩)]
      simp
    have e3 : cp.filter (fun p => decide (p.1 ≠ tempPar)) = cp := by
      apply List.filter_eq_self.mpr
      intro x hx
      simp only [decide_eq_true_eq]
      exact fun h => htemp (h ▸ hcpnodes x hx)
    rw [e1, e2, e3]
  constructor
  · intro hw
    unfold macid_is_s_reachable
    rw [hAdd, hhook]
    simp only [exceptBind_ok]
    have hw2 : MACIDBase.whose_node
        ⟨m.nodesL ++ [tempPar], m.edges ++ [(tempPar, d2)], m.node_types, cp⟩ d1 = none := hw
    simp only [hw2]
  · intro ag hw
    refine ⟨cp, ?_, hcpnodes, hvars, himp⟩
    unfold macid_is_s_reachable
    rw [hAdd, hhook]
    simp only [exceptBind_ok]
    have hw2 : MACIDBase.whose_node
        ⟨m.nodesL ++ [tempPar], m.edges ++ [(tempPar, d2)], m.node_types, cp⟩ d1 = some ag := hw
    simp only [hw2]
    rw [hremove]
    rfl

theorem getA_of_mem_nodup {α β : Type} [DecidableEq α] {l : List (α × β)} {q : α × β}
    (hnodup : (l.map (fun p => p.1)).Nodup) (hq : q ∈ l) : getA l q.1 = some q.2 := by
  induction l with
  | nil => cases hq
  | cons p tl ih =>
    simp only [List.map_cons, List.nodup_cons] at hnodup
    rcases List.mem_cons.mp hq with h1 | h2
    · subst h1
      unfold getA
      rw [List.find?_cons_of_pos _ (by simp)]
      rfl
    · have hne : ¬ (p.1 = q.1) := by
        intro he
        exact hnodup.1 (he ▸ List.mem_map_of_mem (fun r => r.1) h2)
      unfold getA
      rw [List.find?_cons_of_neg _ (by simp [hne])]
      exact ih hnodup.2 h2

theorem whose_node_of_decision {m : MACIDBase ν} (hnodup : m.agents.Nodup) {d : ν}
    (hd : d ∈ m.all_decision_nodes) : ∃ ag, m.whose_node d = some ag := by
  rw [MACIDBase.all_decision_nodes, List.mem_dedup, List.mem_flatMap] at hd
  obtain ⟨t, ht, hdt⟩ := hd
  have hget : getA m.node_types t.1 = some t.2 := getA_of_mem_nodup hnodup ht
  have hdec : d ∈ decListOf m t.1 := by
    unfold decListOf
    rw [hget]
    exact hdt
  have hmem : t.1 ∈ m.agents.reverse := by
    rw [List.mem_reverse]
    exact List.mem_map_of_mem _ ht
  cases hf : m.whose_node d with
  | some ag => exact ⟨ag, rfl⟩
  | none =>
    exfalso
    have h1 := List.find?_eq_none.mp hf t.1 hmem
    simp [hdec] at h1

theorem macid_sreach_eq_val {tempPar : ν} {m : MACIDBase ν} {d1 d2 : ν} {ag : ℕ}
    (htemp : tempPar ∉ m.nodesL)
    (hwf : ∀ e ∈ m.edges, e.1 ∈ m.nodesL ∧ e.2 ∈ m.nodesL)
    (hcpd : ∀ p ∈ m.cpds, p.1 ∈ m.nodesL)
    (hvar : ∀ p ∈ m.cpds, p.2.var = p.1)
    (hd2 : d2 ∈ m.nodesL)
    (hw : m.whose_node d1 = some ag) :
    macid_sreach tempPar m d1 d2 = macid_sreach_val tempPar m d1 d2 ag := by
  obtain ⟨cp, hok, -, -, -⟩ := (macid_call htemp hwf hcpd hvar hd2).2 ag hw
  unfold macid_sreach
  rw [hok]
  rfl

theorem srgAux_spec {tempPar : ν} {m : MACIDBase ν}
    (htemp : tempPar ∉ m.nodesL)
    (hwf : ∀ e ∈ m.edges, e.1 ∈ m.nodesL ∧ e.2 ∈ m.nodesL)
    (hcpd0 : ∀ p ∈ m.cpds, p.1 ∈ m.nodesL)
    (hvar0 : ∀ p ∈ m.cpds, p.2.var = p.1) :
    ∀ (pairs : List (ν × ν)) (acc : List (ν × ν)) (cp : List (ν × CPD ν)),
      (∀ p ∈ cp, p.1 ∈ m.nodesL) → (∀ p ∈ cp, p.2.var = p.1) →
      (∀ pr ∈ pairs, (∃ ag, m.whose_node pr.1 = some ag) ∧ pr.2 ∈ m.nodesL) →
      ∃ res cp2, srgAux tempPar ⟨m.nodesL, m.edges, m.node_types, cp⟩ acc pairs =
          .ok (res, ⟨m.nodesL, m.edges, m.node_types, cp2⟩) ∧
        res = acc ++ pairs.filter (fun pr => macid_sreach tempPar m pr.1 pr.2) := by
  intro pairs
  induction pairs with
  | nil =>
    intro acc cp hk hv hpr
    exact ⟨acc, cp, rfl, by simp⟩
  | cons pr rest ih =>
    intro acc cp hk hv hpr
    obtain ⟨⟨ag, hag⟩, hpr2⟩ := hpr pr (List.mem_cons_self pr rest)
    have hwc : MACIDBase.whose_node ⟨m.nodesL, m.edges, m.node_types, cp⟩ pr.1 = some ag := hag
    obtain ⟨cp1, hok, hkeys1, hvars1, -⟩ :=
      (@macid_call ν _ tempPar ⟨m.nodesL, m.edges, m.node_types, cp⟩ pr.1 pr.2
        htemp hwf hk hv hpr2).2 ag hwc
    have hval : macid_sreach_val tempPar (⟨m.nodesL, m.edges, m.node_types, cp⟩ : MACIDBase ν)
        pr.1 pr.2 ag = macid_sreach tempPar m pr.1 pr.2 := by
      rw [macid_sreach_eq_val htemp hwf hcpd0 hvar0 hpr2 hag]
      rfl
    have hk1 : ∀ p ∈ cp1, p.1 ∈ m.nodesL := hkeys1
    obtain ⟨res, cp2, hrec, hres⟩ := ih
      (if macid_sreach tempPar m pr.1 pr.2 then acc ++ [pr] else acc) cp1 hk1 hvars1
      (fun q hq => hpr q (List.mem_cons_of_mem pr hq))
    refine ⟨res, cp2, ?_, ?_⟩
    · simp only [srgAux]
      rw [hok]
      simp only [exceptBind_ok]
      rw [hval]
      exact hrec
    · rw [hres]
      by_cases hb : macid_sreach tempPar m pr.1 pr.2 = true
      · rw [if_pos hb, List.filter_cons_of_pos (by simpa using hb)]
        simp
      · rw [if_neg (by simpa using hb),
          List.filter_cons_of_neg (by simpa using hb)]

theorem nodesG_iff {g : DiGraph ν} {v : ν} :
    v ∈ g.nodesG ↔ ∃ w, ((v, w) ∈ g.edgesG ∨ (w, v) ∈ g.edgesG) := by
  unfold DiGraph.nodesG
  rw [List.mem_dedup, List.mem_flatMap]
  constructor
  · rintro ⟨e, he, hv⟩
    simp only [List.mem_cons, List.mem_singleton, List.not_mem_nil, or_false] at hv
    rcases hv with h1 | h2
    · subst h1
      exact ⟨e.2, Or.inl (by rwa [Prod.mk.eta])⟩
    · subst h2
      exact ⟨e.1, Or.inr (by rwa [Prod.mk.eta])⟩
  · rintro ⟨w, h | h⟩
    · exact ⟨(v, w), h, by simp⟩
    · exact ⟨(w, v), h, by simp⟩

/-- Claim C5 counterexample: on a diagram that already contains a node
with the temporary parent's name, `MACID.is_s_reachable` returns but
destroys that node and its incident edges. -/
theorem claim_C5_counterexample :
    (macid_is_s_reachable 100 exC5 0 1).map
        (fun r => decide ((100 : ℕ) ∈ r.2.nodesL) || decide (((100 : ℕ), (2 : ℕ)) ∈ r.2.edges)) =
      .ok false ∧
    (100 : ℕ) ∈ exC5.nodesL ∧ ((100 : ℕ), (2 : ℕ)) ∈ exC5.edges := by
  exact ⟨by decide, by decide, by decide⟩

/-- Claim C5 (amended): the base `is_r_reachable`/`is_s_reachable` are
embedded as pure readers of the diagram, and a returning call of
`MACID.is_s_reachable` restores the node set, edge set and agent
partition provided no node bears the temporary parent's name, and
restores the diagram exactly when additionally `d2` does not carry a
uniform-random policy (which `add_edge` would recompute against the
temporary parent set). -/
theorem claim_C5_amended {tempPar : ν} {m : MACIDBase ν} {d1 d2 : ν} {b : Bool}
    {m2 : MACIDBase ν}
    (htemp : tempPar ∉ m.nodesL)
    (hwf : ∀ e ∈ m.edges, e.1 ∈ m.nodesL ∧ e.2 ∈ m.nodesL)
    (hcpd : ∀ p ∈ m.cpds, p.1 ∈ m.nodesL)
    (hvar : ∀ p ∈ m.cpds, p.2.var = p.1)
    (hd2 : d2 ∈ m.nodesL)
    (hret : macid_is_s_reachable tempPar m d1 d2 = .ok (b, m2)) :
    m2.nodesL = m.nodesL ∧ m2.edges = m.edges ∧ m2.node_types = m.node_types ∧
    ((¬ ∃ c, m.get_cpds d2 = some c ∧ c.kind = CpdKind.uniformK) → m2 = m) := by
  cases hw : m.whose_node d1 with
  | none =>
    rw [(macid_call htemp hwf hcpd hvar hd2).1 hw] at hret
    cases hret
  | some ag =>
    obtain ⟨cp, hok, hkeys, hvars, himp⟩ := (macid_call htemp hwf hcpd hvar hd2).2 ag hw
    rw [hok] at hret
    injection hret with hpair
    injection hpair with hb hm
    subst hm
    refine ⟨rfl, rfl, rfl, ?_⟩
    intro hnu
    rw [himp hnu]

theorem claim_C5_witness :
    ((100 : ℕ) ∉ exC7.nodesL ∧
      (∀ e ∈ exC7.edges, e.1 ∈ exC7.nodesL ∧ e.2 ∈ exC7.nodesL) ∧
      (∀ p ∈ exC7.cpds, p.1 ∈ exC7.nodesL) ∧
      (∀ p ∈ exC7.cpds, p.2.var = p.1) ∧
      (1 : ℕ) ∈ exC7.nodesL ∧
      macid_is_s_reachable 100 exC7 0 1 = .ok (true, exC7)) ∧
    (exC7.nodesL = exC7.nodesL ∧ exC7.edges = exC7.edges ∧
      exC7.node_types = exC7.node_types ∧
      ((¬ ∃ c, exC7.get_cpds 1 = some c ∧ c.kind = CpdKind.uniformK) → exC7 = exC7)) :=
  ⟨⟨by decide, by decide, by decide, by decide, by decide, by decide⟩,
    @claim_C5_amended ℕ _ 100 exC7 0 1 true exC7
      (by decide) (by decide) (by decide) (by decide) (by decide) (by decide)⟩

/-- Claim C4 counterexample: on the single-decision diagram `exMin`, the
strategic relevance graph has an empty vertex set rather than the
decision set (networkx only adds vertices incident to added edges). -/
theorem claim_C4_counterexample :
    strategic_rel_graph 100 exMin = .ok (⟨[]⟩, exMin) ∧
    DiGraph.nodesG (⟨[]⟩ : DiGraph ℕ) ≠ exMin.all_decision_nodes := by
  exact ⟨by decide, by decide⟩

/-- Claim C4 (amended): `strategic_rel_graph` is built over all decision
nodes (there is no chosen-subset parameter); it contains the edge
D → D2, for an ordered pair of distinct decision nodes, exactly when
`MACID.is_s_reachable(D, D2)` holds, and its vertex set consists exactly
of the nodes incident to at least one such edge. -/
theorem claim_C4_amended {tempPar : ν} {m : MACIDBase ν}
    (htemp : tempPar ∉ m.nodesL)
    (hwf : ∀ e ∈ m.edges, e.1 ∈ m.nodesL ∧ e.2 ∈ m.nodesL)
    (hcpd : ∀ p ∈ m.cpds, p.1 ∈ m.nodesL)
    (hvar : ∀ p ∈ m.cpds, p.2.var = p.1)
    (hdec : ∀ d ∈ m.all_decision_nodes, d ∈ m.nodesL)
    (hnodup : m.agents.Nodup) :
    ∃ g m2, strategic_rel_graph tempPar m = .ok (g, m2) ∧
      (∀ d d2 : ν, (d, d2) ∈ g.edgesG ↔
        (d ∈ m.all_decision_nodes ∧ d2 ∈ m.all_decision_nodes ∧ d ≠ d2 ∧
          macid_sreach tempPar m d d2 = true)) ∧
      (∀ v : ν, v ∈ g.nodesG ↔ ∃ w, ((v, w) ∈ g.edgesG ∨ (w, v) ∈ g.edgesG)) := by
  have hpairs : ∀ pr ∈ decPairPerms m,
      (∃ ag, m.whose_node pr.1 = some ag) ∧ pr.2 ∈ m.nodesL := by
    rintro ⟨x, y⟩ hpr
    rw [decPairPerms, List.mem_filter, List.mem_product] at hpr
    exact ⟨whose_node_of_decision hnodup hpr.1.1, hdec _ hpr.1.2⟩
  obtain ⟨res, cp2, hrun, hres⟩ := srgAux_spec htemp hwf hcpd hvar
    (decPairPerms m) [] m.cpds hcpd hvar hpairs
  refine ⟨⟨res⟩, ⟨m.nodesL, m.edges, m.node_types, cp2⟩, ?_, ?_, ?_⟩
  · unfold strategic_rel_graph
    rw [show srgAux tempPar m [] (decPairPerms m) =
        srgAux tempPar ⟨m.nodesL, m.edges, m.node_types, m.cpds⟩ [] (decPairPerms m) from rfl]
    rw [hrun, exceptBind_ok]
  · intro d d2
    rw [hres]
    simp only [List.nil_append]
    rw [List.mem_filter]
    unfold decPairPerms
    rw [List.mem_filter, List.mem_product]
    constructor
    · rintro ⟨⟨⟨hd1, hd2b⟩, hne⟩, hs⟩
      exact ⟨hd1, hd2b, by simpa using hne, hs⟩
    · rintro ⟨h1, h2, h3, h4⟩
      exact ⟨⟨⟨h1, h2⟩, by simpa using h3⟩, h4⟩
  · intro v
    exact nodesG_iff

theorem claim_C4_witness :
    ((100 : ℕ) ∉ exC7.nodesL ∧
      (∀ e ∈ exC7.edges, e.1 ∈ exC7.nodesL ∧ e.2 ∈ exC7.nodesL) ∧
      (∀ p ∈ exC7.cpds, p.1 ∈ exC7.nodesL) ∧
      (∀ p ∈ exC7.cpds, p.2.var = p.1) ∧
      (∀ d ∈ exC7.all_decision_nodes, d ∈ exC7.nodesL) ∧
      exC7.agents.Nodup) ∧
    (∃ g m2, strategic_rel_graph 100 exC7 = .ok (g, m2) ∧
      (∀ d d2 : ℕ, (d, d2) ∈ g.edgesG ↔
        (d ∈ exC7.all_decision_nodes ∧ d2 ∈ exC7.all_decision_nodes ∧ d ≠ d2 ∧
          macid_sreach 100 exC7 d d2 = true)) ∧
      (∀ v : ℕ, v ∈ g.nodesG ↔ ∃ w, ((v, w) ∈ g.edgesG ∨ (w, v) ∈ g.edgesG))) :=
  ⟨⟨by decide, by decide, by decide, by decide, by decide, by decide⟩,
    @claim_C4_amended ℕ _ 100 exC7
      (by decide) (by decide) (by decide) (by decide) (by decide) (by decide)⟩


/-- Claim C1, refuted as stated: decision 2 of `exC1` is not s-reachable
from the chosen set `[0]`, yet the neutralization phase of
`optimal_pure_strategies` leaves its pre-assigned function CPD in place
(only DecisionDomain placeholders are overwritten), and the full call
still returns normally. -/
theorem claim_C1_counterexample :
    exC1.is_s_reachable mec100 [0] 2 = .ok false ∧
    2 ∈ exC1.all_decision_nodes ∧
    Except.map (fun m2 => (m2.get_cpds 2).map (fun c => c.kind))
        (exC1.copy >>= fun mc => neutralizeAux mec100 [0] mc mc.all_decision_nodes) =
      .ok (some (CpdKind.fnK [0])) ∧
    MACIDBase.optimal_pure_strategies mec100 (fun _ _ => 0) exC1 [0] =
      .ok [[⟨0, [0, 1], [], [], CpdKind.fnK [0]⟩], [⟨0, [0, 1], [], [], CpdKind.fnK [1]⟩]] :=
  ⟨by decide, by decide, by decide, by decide⟩

theorem getA_cons {α β : Type} [DecidableEq α] (p : α × β) (tl : List (α × β)) (a : α) :
    getA (p :: tl) a = if p.1 = a then some p.2 else getA tl a := by
  by_cases h : p.1 = a
  · rw [if_pos h]
    unfold getA
    rw [List.find?_cons_of_pos _ (by simpa using h)]
    rfl
  · rw [if_neg h]
    unfold getA
    rw [List.find?_cons_of_neg _ (by simpa using h)]

theorem getA_mem_keys {α β : Type} [DecidableEq α] {l : List (α × β)} {a : α} {b : β}
    (h : getA l a = some b) : a ∈ l.map (fun p => p.1) := by
  obtain ⟨q, hq, h1, _⟩ := getA_mem h
  exact List.mem_map.mpr ⟨q, hq, h1⟩

theorem getA_setA_self {α β : Type} [DecidableEq α] {l : List (α × β)} (a : α) (b : β) :
    getA (setA l a b) a = some b := by
  induction l with
  | nil =>
    rw [setA, getA_cons]
    simp
  | cons p tl ih =>
    rw [setA]
    by_cases h : p.1 = a
    · rw [if_pos h, getA_cons]
      simp
    · rw [if_neg h, getA_cons, if_neg h]
      exact ih

theorem getA_setA_other {α β : Type} [DecidableEq α] {a x : α} {b : β} (h : x ≠ a) :
    ∀ {l : List (α × β)}, getA (setA l a b) x = getA l x := by
  intro l
  induction l with
  | nil =>
    rw [setA, getA_cons, if_neg (fun hax => h hax.symm)]
  | cons p tl ih =>
    rw [setA]
    by_cases hp : p.1 = a
    · have h2 : ¬ (p.1 = x) := fun hpx => h ((hp ▸ hpx : a = x)).symm
      rw [if_pos hp, getA_cons, if_neg (fun hax => h hax.symm), getA_cons, if_neg h2]
    · rw [if_neg hp, getA_cons, getA_cons]
      by_cases hx : p.1 = x
      · rw [if_pos hx, if_pos hx]
      · rw [if_neg hx, if_neg hx]
        exact ih

theorem setA_keys_of_mem {α β : Type} [DecidableEq α] {a : α} (b : β) :
    ∀ {l : List (α × β)}, a ∈ l.map (fun p => p.1) →
      (setA l a b).map (fun p => p.1) = l.map (fun p => p.1) := by
  intro l
  induction l with
  | nil => simp
  | cons p tl ih =>
    intro hmem
    rw [setA]
    by_cases hp : p.1 = a
    · rw [if_pos hp]
      simp [hp]
    · rw [if_neg hp]
      rw [List.map_cons] at hmem
      rcases List.mem_cons.mp hmem with h1 | h2
      · exact absurd h1.symm hp
      · rw [List.map_cons, List.map_cons, ih h2]

theorem setA_map {α β : Type} [DecidableEq α] {a : α} (b : β) :
    ∀ {l : List (α × β)}, (l.map (fun p => p.1)).Nodup → a ∈ l.map (fun p => p.1) →
      setA l a b = l.map (fun p => if p.1 = a then (a, b) else p) := by
  intro l
  induction l with
  | nil => simp
  | cons p tl ih =>
    intro hnd hmem
    rw [List.map_cons] at hnd hmem
    rw [setA, List.map_cons]
    by_cases hp : p.1 = a
    · rw [if_pos hp, if_pos hp]
      have hnot : ∀ q ∈ tl, q.1 ≠ a := by
        intro q hq hqa
        have : p.1 ∈ tl.map (fun r => r.1) := by
          rw [hp, ← hqa]
          exact List.mem_map_of_mem _ hq
        exact (List.nodup_cons.mp hnd).1 this
      have htl : tl.map (fun q => if q.1 = a then (a, b) else q) = tl := by
        conv_rhs => rw [← List.map_id tl]
        exact List.map_congr_left (fun q hq => by rw [if_neg (hnot q hq)]; rfl)
      rw [htl]
    · rw [if_neg hp, if_neg hp]
      rcases List.mem_cons.mp hmem with h1 | h2
      · exact absurd h1.symm hp
      · rw [ih (List.nodup_cons.mp hnd).2 h2]

theorem foldl_lastVar {a : ν} :
    ∀ (s : List (CPD ν)) (init : Option (CPD ν)),
      s.foldl (fun acc c => if c.var = a then some c else acc) init =
        match s.foldl (fun acc c => if c.var = a then some c else acc) none with
        | some x => some x
        | none => init := by
  intro s
  induction s with
  | nil => intro init; rfl
  | cons c cs ih =>
    intro init
    rw [List.foldl_cons, List.foldl_cons, ih (if c.var = a then some c else init),
      ih (if c.var = a then some c else none)]
    cases cs.foldl (fun acc c => if c.var = a then some c else acc) none with
    | some x => rfl
    | none =>
      by_cases h : c.var = a
      · rw [if_pos h, if_pos h]
      · rw [if_neg h, if_neg h]

theorem lastVar_cons (c : CPD ν) (s : List (CPD ν)) (a : ν) :
    lastVar (c :: s) a =
      match lastVar s a with
      | some x => some x
      | none => if c.var = a then some c else none := by
  unfold lastVar
  rw [List.foldl_cons]
  exact foldl_lastVar s (if c.var = a then some c else none)

theorem lastVar_eq_none {a : ν} :
    ∀ {s : List (CPD ν)}, (∀ c ∈ s, c.var ≠ a) → lastVar s a = none := by
  intro s
  induction s with
  | nil => intro _; rfl
  | cons c cs ih =>
    intro h
    rw [lastVar_cons, ih (fun x hx => h x (List.mem_cons_of_mem c hx))]
    exact if_neg (h c (List.mem_cons_self c cs))

theorem lastVar_isSome {a : ν} :
    ∀ {s : List (CPD ν)}, (∃ c ∈ s, c.var = a) → (lastVar s a).isSome = true := by
  intro s
  induction s with
  | nil => rintro ⟨c, hc, _⟩; cases hc
  | cons c cs ih =>
    rintro ⟨x, hx, hxa⟩
    rw [lastVar_cons]
    cases hl : lastVar cs a with
    | some y => rfl
    | none =>
      rcases List.mem_cons.mp hx with h1 | h2
      · subst h1
        rw [if_pos hxa]
        rfl
      · have hs := ih ⟨x, h2, hxa⟩
        rw [hl] at hs
        cases hs

theorem lastVar_mem {a : ν} :
    ∀ {s : List (CPD ν)} {x : CPD ν}, lastVar s a = some x → x ∈ s ∧ x.var = a := by
  intro s
  induction s with
  | nil => intro x h; cases h
  | cons c cs ih =>
    intro x h
    rw [lastVar_cons] at h
    cases hl : lastVar cs a with
    | some y =>
      rw [hl] at h
      injection h with h2
      subst h2
      obtain ⟨hy1, hy2⟩ := ih hl
      exact ⟨List.mem_cons_of_mem c hy1, hy2⟩
    | none =>
      rw [hl] at h
      by_cases hc : c.var = a
      · rw [if_pos hc] at h
        injection h with h2
        subst h2
        exact ⟨List.mem_cons_self c cs, hc⟩
      · rw [if_neg hc] at h
        cases h

theorem substS_fst (s : List (CPD ν)) (p : ν × CPD ν) : (substS s p).1 = p.1 := by
  unfold substS
  cases lastVar s p.1 <;> rfl

theorem substS_of_some {s : List (CPD ν)} {p : ν × CPD ν} {x : CPD ν}
    (h : lastVar s p.1 = some x) : substS s p = (p.1, x) := by
  unfold substS
  rw [h]

theorem substS_of_none {s : List (CPD ν)} {p : ν × CPD ν}
    (h : lastVar s p.1 = none) : substS s p = p := by
  unfold substS
  rw [h]

theorem applyS_keys :
    ∀ (s : List (CPD ν)) (cps : List (ν × CPD ν)),
      (∀ c ∈ s, c.var ∈ cps.map (fun p => p.1)) →
      (applyS cps s).map (fun p => p.1) = cps.map (fun p => p.1) := by
  intro s
  induction s with
  | nil => intro cps _; rfl
  | cons c cs ih =>
    intro cps h
    have h1 : c.var ∈ cps.map (fun p => p.1) := h c (List.mem_cons_self c cs)
    have hk : (setA cps c.var c).map (fun p => p.1) = cps.map (fun p => p.1) :=
      setA_keys_of_mem c h1
    rw [show applyS cps (c :: cs) = applyS (setA cps c.var c) cs from rfl]
    rw [ih (setA cps c.var c) (fun x hx => by rw [hk]; exact h x (List.mem_cons_of_mem c hx)), hk]

theorem applyS_map :
    ∀ (s : List (CPD ν)) (cps : List (ν × CPD ν)),
      (cps.map (fun p => p.1)).Nodup →
      (∀ c ∈ s, c.var ∈ cps.map (fun p => p.1)) →
      applyS cps s = cps.map (substS s) := by
  intro s
  induction s with
  | nil =>
    intro cps _ _
    rw [show applyS cps [] = cps from rfl]
    conv_lhs => rw [← List.map_id cps]
    exact List.map_congr_left (fun p _ => rfl)
  | cons c cs ih =>
    intro cps hnd h
    have h1 : c.var ∈ cps.map (fun p => p.1) := h c (List.mem_cons_self c cs)
    have hk : (setA cps c.var c).map (fun p => p.1) = cps.map (fun p => p.1) :=
      setA_keys_of_mem c h1
    rw [show applyS cps (c :: cs) = applyS (setA cps c.var c) cs from rfl]
    rw [ih (setA cps c.var c) (by rw [hk]; exact hnd)
      (fun x hx => by rw [hk]; exact h x (List.mem_cons_of_mem c hx))]
    rw [setA_map c hnd h1, List.map_map]
    refine List.map_congr_left (fun p hp => ?_)
    by_cases hpc : p.1 = c.var
    · show substS cs (if p.1 = c.var then (c.var, c) else p) = substS (c :: cs) p
      rw [if_pos hpc]
      show (match lastVar cs c.var with
            | some x => (c.var, x)
            | none => (c.var, c)) =
          (match lastVar (c :: cs) p.1 with
            | some x => (p.1, x)
            | none => p)
      rw [hpc, lastVar_cons]
      cases hl : lastVar cs c.var with
      | some x => rfl
      | none => rw [if_pos rfl]
    · show substS cs (if p.1 = c.var then (c.var, c) else p) = substS (c :: cs) p
      rw [if_neg hpc]
      show (match lastVar cs p.1 with
            | some x => (p.1, x)
            | none => p) =
          (match lastVar (c :: cs) p.1 with
            | some x => (p.1, x)
            | none => p)
      rw [lastVar_cons]
      cases hl : lastVar cs p.1 with
      | some x => rfl
      | none => rw [if_neg (fun hcv => hpc (Eq.symm hcv))]

theorem applyS_override {cps : List (ν × CPD ν)} {s1 s2 : List (CPD ν)}
    (hnd : (cps.map (fun p => p.1)).Nodup)
    (h1 : ∀ c ∈ s1, c.var ∈ cps.map (fun p => p.1))
    (h2 : ∀ c ∈ s2, c.var ∈ cps.map (fun p => p.1))
    (h12 : ∀ c ∈ s1, ∃ c2 ∈ s2, c2.var = c.var) :
    applyS (applyS cps s1) s2 = applyS cps s2 := by
  have hk := applyS_keys s1 cps h1
  rw [applyS_map s2 (applyS cps s1) (by rw [hk]; exact hnd)
    (fun c hc => by rw [hk]; exact h2 c hc)]
  rw [applyS_map s1 cps hnd h1, List.map_map, applyS_map s2 cps hnd h2]
  refine List.map_congr_left (fun p hp => ?_)
  show substS s2 (substS s1 p) = substS s2 p
  by_cases hmem : ∃ c ∈ s1, c.var = p.1
  · obtain ⟨x, hx⟩ := Option.isSome_iff_exists.mp (lastVar_isSome hmem)
    obtain ⟨c, hc, hcp⟩ := hmem
    obtain ⟨c2, hc2, h2v⟩ := h12 c hc
    obtain ⟨y, hy⟩ := Option.isSome_iff_exists.mp
      (lastVar_isSome ⟨c2, hc2, by rw [h2v, hcp]⟩)
    rw [substS_of_some hx]
    rw [substS_of_some (show lastVar s2 ((p.1, x) : ν × CPD ν).1 = some y from hy),
      substS_of_some hy]
  · have hnone : lastVar s1 p.1 = none := by
      cases h : lastVar s1 p.1 with
      | none => rfl
      | some z =>
        obtain ⟨hz1, hz2⟩ := lastVar_mem h
        exact absurd ⟨z, hz1, hz2⟩ hmem
    rw [substS_of_none hnone]

theorem zip_self_map {α β : Type} (f : α → β) :
    ∀ l : List α, l.zip (l.map f) = l.map (fun a => (a, f a)) := by
  intro l
  induction l with
  | nil => rfl
  | cons x xs ih => rw [List.map_cons, List.zip_cons_cons, ih, List.map_cons]

theorem filterByMax_mem {f : List (CPD ν) → ℚ} {ss : List (List (CPD ν))}
    {s : List (CPD ν)} :
    s ∈ filterByMax ss (ss.map f) ↔ s ∈ ss ∧ f s = maxQ (ss.map f) := by
  unfold filterByMax
  rw [zip_self_map]
  constructor
  · intro h
    rcases List.mem_map.mp h with ⟨p, hp, hps⟩
    rcases List.mem_filter.mp hp with ⟨hpf, hpd⟩
    rcases List.mem_map.mp hpf with ⟨a, ha, hap⟩
    subst hap
    subst hps
    exact ⟨ha, of_decide_eq_true hpd⟩
  · rintro ⟨hmem, hf⟩
    refine List.mem_map.mpr ⟨(s, f s),
      List.mem_filter.mpr ⟨List.mem_map_of_mem _ hmem, decide_eq_true hf⟩, rfl⟩

theorem forall2_mem_left {α β : Type} {R : α → β → Prop} :
    ∀ {l1 : List α} {l2 : List β}, List.Forall₂ R l1 l2 → ∀ a ∈ l1, ∃ b ∈ l2, R a b := by
  intro l1 l2 h
  induction h with
  | nil => intro a ha; cases ha
  | cons hR hF ih =>
    intro a ha
    rcases List.mem_cons.mp ha with h1 | h2
    · subst h1
      exact ⟨_, List.mem_cons_self _ _, hR⟩
    · obtain ⟨b, hb, hab⟩ := ih a h2
      exact ⟨b, List.mem_cons_of_mem _ hb, hab⟩

theorem forall2_mem_right {α β : Type} {R : α → β → Prop} :
    ∀ {l1 : List α} {l2 : List β}, List.Forall₂ R l1 l2 → ∀ b ∈ l2, ∃ a ∈ l1, R a b := by
  intro l1 l2 h
  induction h with
  | nil => intro b hb; cases hb
  | cons hR hF ih =>
    intro b hb
    rcases List.mem_cons.mp hb with h1 | h2
    · subst h1
      exact ⟨_, List.mem_cons_self _ _, hR⟩
    · obtain ⟨a, ha, hab⟩ := ih b h2
      exact ⟨a, List.mem_cons_of_mem _ ha, hab⟩

theorem listProd_forall2 {α β : Type} {R : α → β → Prop} :
    ∀ {rss : List (List α)} {ds : List β},
      List.Forall₂ (fun rs d => ∀ c ∈ rs, R c d) rss ds →
      ∀ s ∈ listProd rss, List.Forall₂ R s ds := by
  intro rss ds h
  induction h with
  | nil =>
    intro s hs
    have hs' : s = [] := List.mem_singleton.mp hs
    subst hs'
    exact List.Forall₂.nil
  | cons hR hF ih =>
    intro s hs
    rcases List.mem_flatMap.mp hs with ⟨x, hx, hs2⟩
    rcases List.mem_map.mp hs2 with ⟨t, ht, hts⟩
    subst hts
    exact List.Forall₂.cons (hR x hx) (ih t ht)

theorem mapME_ok_forall2 {f : ν → Except (Err ν) (List (CPD ν))} :
    ∀ {ds : List ν} {rss : List (List (CPD ν))}, mapME f ds = .ok rss →
      List.Forall₂ (fun rs d => f d = .ok rs) rss ds := by
  intro ds
  induction ds with
  | nil =>
    intro rss h
    injection h with h2
    subst h2
    exact List.Forall₂.nil
  | cons d ds ih =>
    intro rss h
    simp only [mapME] at h
    cases hf : f d with
    | error e =>
      rw [hf] at h
      simp only [exceptBind_err] at h
      cases h
    | ok r =>
      rw [hf] at h
      simp only [exceptBind_ok] at h
      cases hm : mapME f ds with
      | error e =>
        rw [hm] at h
        simp only [exceptBind_err] at h
        cases h
      | ok rs =>
        rw [hm] at h
        simp only [exceptBind_ok] at h
        injection h with h2
        subst h2
        exact List.Forall₂.cons hf (ih hm)

theorem pure_rules_src {m2 : MACIDBase ν} {d : ν} {rules : List (CPD ν)}
    (h : m2.pure_decision_rules d = .ok rules) :
    ∃ c0, m2.get_cpds d = some c0 ∧ ∀ c ∈ rules, c.var = d ∧ c.evidence = c0.evidence ∧
      c.evidence_card = c0.evidence_card ∧ c.dom = c0.dom ∧ isFnK c.kind = true := by
  unfold MACIDBase.pure_decision_rules at h
  cases hco : m2.get_cpds d with
  | none =>
    rw [hco] at h
    cases h
  | some c0 =>
    rw [hco] at h
    injection h with h2
    subst h2
    refine ⟨c0, rfl, ?_⟩
    intro c hc
    rcases List.mem_map.mp hc with ⟨fl, _, hfl⟩
    subst hfl
    exact ⟨rfl, rfl, rfl, rfl, rfl⟩

theorem mapME_rules_ok {m2 : MACIDBase ν} :
    ∀ {ds : List ν}, (∀ d ∈ ds, (m2.get_cpds d).isSome = true) →
      ∃ rss, mapME m2.pure_decision_rules ds = .ok rss := by
  intro ds
  induction ds with
  | nil => intro _; exact ⟨[], rfl⟩
  | cons d ds ih =>
    intro h
    obtain ⟨c, hc⟩ := Option.isSome_iff_exists.mp (h d (List.mem_cons_self d ds))
    obtain ⟨rss, hrss⟩ := ih (fun x hx => h x (List.mem_cons_of_mem d hx))
    have hpd : m2.pure_decision_rules d = .ok ((prodRepeat c.dom c.evidence_card.prod).map
        (fun fl => ⟨d, c.dom, c.evidence, c.evidence_card, CpdKind.fnK fl⟩)) := by
      unfold MACIDBase.pure_decision_rules
      rw [hc]
    refine ⟨((prodRepeat c.dom c.evidence_card.prod).map
      (fun fl => (⟨d, c.dom, c.evidence, c.evidence_card, CpdKind.fnK fl⟩ : CPD ν))) :: rss, ?_⟩
    simp only [mapME]
    rw [hpd]
    simp only [exceptBind_ok]
    rw [hrss]
    simp only [exceptBind_ok]

theorem isFnK_ne_dd {k : CpdKind} (h : isFnK k = true) : k ≠ CpdKind.dd := by
  intro hk
  subst hk
  cases h

theorem decListOf_sub_all {m : MACIDBase ν} {a : ℕ} {d : ν}
    (hd : d ∈ decListOf m a) : d ∈ m.all_decision_nodes := by
  unfold decListOf at hd
  unfold MACIDBase.all_decision_nodes
  rw [List.mem_dedup]
  cases hg : getA m.node_types a with
  | none =>
    rw [hg] at hd
    cases hd
  | some t =>
    rw [hg] at hd
    obtain ⟨q, hq, hq1, hq2⟩ := getA_mem hg
    refine List.mem_flatMap.mpr ⟨q, hq, ?_⟩
    rw [hq2]
    exact hd

theorem rReachAux_cons {mecf : ν → ν} {m mg : MACIDBase ν} {nodes : List ν}
    {d : ν} {ds : List ν} {ag : ℕ} (hag : m.whose_node d = some ag) :
    rReachAux mecf m mg nodes (d :: ds) =
      (if nodes.any (fun v => ((utilListOf m ag).filter
          (fun u => decide (u ≠ d) && reachesB m.edges m.nodesL d u)).any
          (fun u => is_active_trail mg.edges mg.nodesL (mecf v) u (d :: m.get_parents d)))
        then .ok true
        else rReachAux mecf m mg nodes ds) := by
  conv_lhs => unfold rReachAux
  rw [hag]

theorem rReachAux_ok {mecf : ν → ν} (m mg : MACIDBase ν) (nodes : List ν) :
    ∀ {ds : List ν}, (∀ d ∈ ds, (m.whose_node d).isSome = true) →
      ∃ b, rReachAux mecf m mg nodes ds = .ok b := by
  intro ds
  induction ds with
  | nil => intro _; exact ⟨false, rfl⟩
  | cons d ds ih =>
    intro h
    obtain ⟨ag, hag⟩ := Option.isSome_iff_exists.mp (h d (List.mem_cons_self d ds))
    obtain ⟨b, hb⟩ := ih (fun x hx => h x (List.mem_cons_of_mem d hx))
    by_cases hc : (nodes.any (fun v => ((utilListOf m ag).filter
        (fun u => decide (u ≠ d) && reachesB m.edges m.nodesL d u)).any
        (fun u => is_active_trail mg.edges mg.nodesL (mecf v) u (d :: m.get_parents d)))) = true
    · exact ⟨true, by rw [rReachAux_cons hag, if_pos hc]⟩
    · exact ⟨b, by rw [rReachAux_cons hag, if_neg hc]; exact hb⟩

theorem is_s_reachable_ok (mecf : ν → ν) {m : MACIDBase ν} {decisions : List ν} {d : ν}
    (hd : d ∈ m.all_decision_nodes)
    (hwho : ∀ x ∈ decisions, (m.whose_node x).isSome = true) :
    ∃ b, m.is_s_reachable mecf decisions d = .ok b := by
  obtain ⟨b, hb⟩ := rReachAux_ok m.structOnly (mechanismGraph mecf m) [d]
    (fun x hx => hwho x hx)
  refine ⟨b, ?_⟩
  unfold MACIDBase.is_s_reachable
  rw [if_pos hd]
  exact hb

theorem neutralizeAux_cons {mecf : ν → ν} {decisions : List ν} {m : MACIDBase ν}
    {d : ν} {ds : List ν} {b : Bool} (hb : m.is_s_reachable mecf decisions d = .ok b) :
    neutralizeAux mecf decisions m (d :: ds) =
      (if !b && isDDOpt (m.get_cpds d) then
        (m.impute_random_decision d) >>= (fun m1 => neutralizeAux mecf decisions m1 ds)
       else neutralizeAux mecf decisions m ds) := by
  conv_lhs => unfold neutralizeAux
  rw [hb]
  simp only [exceptBind_ok]

theorem impute_uniform_ok {m : MACIDBase ν} {cps : List (ν × CPD ν)} {d : ν} {c : CPD ν}
    (hd : d ∈ m.nodesL) (hc : getA cps d = some c)
    (hcard : ∀ v : ν, ((getA cps v).map (fun x => x.dom.length)).getD 0 = m.cardinality v) :
    (⟨m.nodesL, m.edges, m.node_types, cps⟩ : MACIDBase ν).impute_random_decision d =
      .ok ⟨m.nodesL, m.edges, m.node_types, setA cps d (mkUniformCpd m d c)⟩ := by
  have hchk : cpd_check (⟨m.nodesL, m.edges, m.node_types, cps⟩ : MACIDBase ν)
      (mkUniformCpd m d c) = none := by
    unfold cpd_check mkUniformCpd
    rw [if_neg (fun h => h hd)]
    rw [if_neg (fun h => absurd h.1 (by decide : ¬ (CpdKind.uniformK = CpdKind.dd)))]
    rw [if_neg (fun h => absurd h.1 (by decide : ¬ (false = true)))]
  unfold MACIDBase.impute_random_decision
  rw [show MACIDBase.get_cpds ⟨m.nodesL, m.edges, m.node_types, cps⟩ d = some c from hc]
  show MACIDBase.add_cpds ⟨m.nodesL, m.edges, m.node_types, cps⟩
      [⟨d, c.dom, m.get_parents d,
        (m.get_parents d).map (MACIDBase.cardinality ⟨m.nodesL, m.edges, m.node_types, cps⟩),
        .uniformK⟩] = _
  rw [show ((m.get_parents d).map
      (MACIDBase.cardinality ⟨m.nodesL, m.edges, m.node_types, cps⟩)) =
      (m.get_parents d).map m.cardinality from List.map_congr_left (fun v _ => hcard v)]
  show MACIDBase.add_cpds ⟨m.nodesL, m.edges, m.node_types, cps⟩ [mkUniformCpd m d c] = _
  unfold MACIDBase.add_cpds
  rw [show ([mkUniformCpd m d c].findSome?
      (cpd_check ⟨m.nodesL, m.edges, m.node_types, cps⟩)) = none from
    by rw [List.findSome?_cons, hchk]; rfl]
  rfl

theorem neutralizeAux_spec (mecf : ν → ν) {m : MACIDBase ν} {decisions : List ν}
    (hdn : ∀ x ∈ m.all_decision_nodes, x ∈ m.nodesL)
    (hwho : ∀ x ∈ decisions, (m.whose_node x).isSome = true) :
    ∀ (iter : List ν) (cps : List (ν × CPD ν)),
      (∀ x ∈ iter, x ∈ m.all_decision_nodes) → iter.Nodup →
      (∀ v ∈ iter, getA cps v = m.get_cpds v) →
      (∀ v : ν, ((getA cps v).map (fun x => x.dom.length)).getD 0 = m.cardinality v) →
      ∃ cps2,
        neutralizeAux mecf decisions ⟨m.nodesL, m.edges, m.node_types, cps⟩ iter =
          .ok ⟨m.nodesL, m.edges, m.node_types, cps2⟩ ∧
        cps2.map (fun p => p.1) = cps.map (fun p => p.1) ∧
        (∀ v : ν, getA cps2 v =
          if v ∈ iter ∧ m.is_s_reachable mecf decisions v = .ok false ∧
              isDDOpt (m.get_cpds v) = true then
            (m.get_cpds v).map (mkUniformCpd m v)
          else getA cps v) := by
  intro iter
  induction iter with
  | nil =>
    intro cps _ _ _ _
    refine ⟨cps, rfl, rfl, fun v => ?_⟩
    rw [if_neg]
    rintro ⟨hv, _⟩
    cases hv
  | cons d ds ih =>
    intro cps hsub hnd hing hcard
    have hdall : d ∈ m.all_decision_nodes := hsub d (List.mem_cons_self d ds)
    obtain ⟨b, hb⟩ := is_s_reachable_ok mecf hdall hwho
    have hbst : (⟨m.nodesL, m.edges, m.node_types, cps⟩ : MACIDBase ν).is_s_reachable
        mecf decisions d = .ok b := hb
    have hingd : getA cps d = m.get_cpds d := hing d (List.mem_cons_self d ds)
    by_cases hcase : (!b && isDDOpt
        (MACIDBase.get_cpds ⟨m.nodesL, m.edges, m.node_types, cps⟩ d)) = true
    · have hb' : b = false := by
        cases b
        · rfl
        · rw [Bool.not_true, Bool.false_and] at hcase
          cases hcase
      subst hb'
      have hdd : isDDOpt (m.get_cpds d) = true := by
        have h2 := hcase
        rw [Bool.and_eq_true] at h2
        have h3 := h2.2
        rwa [show MACIDBase.get_cpds ⟨m.nodesL, m.edges, m.node_types, cps⟩ d =
          m.get_cpds d from hingd] at h3
      obtain ⟨c, hcval⟩ : ∃ c, m.get_cpds d = some c := by
        cases hco : m.get_cpds d with
        | none => rw [hco] at hdd; cases hdd
        | some cv => exact ⟨cv, rfl⟩
      have himp := impute_uniform_ok (hdn d hdall) (hingd.trans hcval) hcard
      have hnds : d ∉ ds := (List.nodup_cons.mp hnd).1
      obtain ⟨cps2, hrec, hkeys, hchar⟩ := ih (setA cps d (mkUniformCpd m d c))
        (fun x hx => hsub x (List.mem_cons_of_mem d hx))
        (List.nodup_cons.mp hnd).2
        (fun v hv => by
          have hvd : v ≠ d := fun he => hnds (he ▸ hv)
          rw [getA_setA_other hvd]
          exact hing v (List.mem_cons_of_mem d hv))
        (fun v => by
          by_cases hv : v = d
          · subst hv
            rw [getA_setA_self]
            unfold MACIDBase.cardinality
            rw [hcval]
            rfl
          · rw [getA_setA_other hv]
            exact hcard v)
      refine ⟨cps2, ?_, ?_, fun v => ?_⟩
      · rw [neutralizeAux_cons hbst, if_pos hcase, himp]
        simp only [exceptBind_ok]
        exact hrec
      · rw [hkeys]
        exact setA_keys_of_mem (mkUniformCpd m d c) (getA_mem_keys (hingd.trans hcval))
      · rw [hchar v]
        by_cases hvd : v = d
        · subst hvd
          rw [if_neg (fun hcon => hnds hcon.1), getA_setA_self,
            if_pos ⟨List.mem_cons_self v ds, hb, hdd⟩, hcval]
          rfl
        · rw [getA_setA_other hvd]
          by_cases hcon : v ∈ ds ∧ m.is_s_reachable mecf decisions v = .ok false ∧
              isDDOpt (m.get_cpds v) = true
          · rw [if_pos hcon, if_pos ⟨List.mem_cons_of_mem d hcon.1, hcon.2⟩]
          · rw [if_neg hcon, if_neg]
            rintro ⟨hmem, hrest⟩
            rcases List.mem_cons.mp hmem with h1 | h2
            · exact hvd h1
            · exact hcon ⟨h2, hrest⟩
    · have hnds : d ∉ ds := (List.nodup_cons.mp hnd).1
      obtain ⟨cps2, hrec, hkeys, hchar⟩ := ih cps
        (fun x hx => hsub x (List.mem_cons_of_mem d hx))
        (List.nodup_cons.mp hnd).2
        (fun v hv => hing v (List.mem_cons_of_mem d hv)) hcard
      refine ⟨cps2, ?_, hkeys, fun v => ?_⟩
      · rw [neutralizeAux_cons hbst, if_neg hcase]
        exact hrec
      · rw [hchar v]
        by_cases hvd : v = d
        · subst hvd
          rw [if_neg (fun hcon => hnds hcon.1), if_neg]
          rintro ⟨_, hfalse, hdd⟩
          apply hcase
          rw [hb] at hfalse
          injection hfalse with hbf
          subst hbf
          rw [show MACIDBase.get_cpds ⟨m.nodesL, m.edges, m.node_types, cps⟩ v =
            m.get_cpds v from hing v (List.mem_cons_self v ds)]
          rw [hdd]
          rfl
        · by_cases hcon : v ∈ ds ∧ m.is_s_reachable mecf decisions v = .ok false ∧
              isDDOpt (m.get_cpds v) = true
          · rw [if_pos hcon, if_pos ⟨List.mem_cons_of_mem d hcon.1, hcon.2⟩]
          · rw [if_neg hcon, if_neg]
            rintro ⟨hmem, hrest⟩
            rcases List.mem_cons.mp hmem with h1 | h2
            · exact hvd h1
            · exact hcon ⟨h2, hrest⟩

theorem evalStrategies_spec (eu : MACIDBase ν → ℕ → ℚ) (ag : ℕ) {nds : List ν}
    {eds : List (ν × ν)} {nts : List (ℕ × List ν × List ν)} :
    ∀ (ss : List (List (CPD ν))) (cps : List (ν × CPD ν)),
      (cps.map (fun p => p.1)).Nodup →
      (∀ s ∈ ss, ∀ c ∈ s, cpd_check (⟨nds, eds, nts, cps⟩ : MACIDBase ν) c = none) →
      (∀ s ∈ ss, ∀ c ∈ s, c.var ∈ cps.map (fun p => p.1)) →
      (∀ s1 ∈ ss, ∀ s2 ∈ ss, ∀ c ∈ s1, ∃ c2 ∈ s2, c2.var = c.var) →
      evalStrategies eu ag ⟨nds, eds, nts, cps⟩ ss =
        .ok (ss.map (fun s => eu ⟨nds, eds, nts, applyS cps s⟩ ag)) := by
  intro ss
  induction ss with
  | nil => intro cps _ _ _ _; rfl
  | cons s rest ih =>
    intro cps hnd hchk hkeys halign
    have hadd : MACIDBase.add_cpds ⟨nds, eds, nts, cps⟩ s =
        .ok ⟨nds, eds, nts, applyS cps s⟩ := by
      unfold MACIDBase.add_cpds
      rw [show s.findSome? (cpd_check ⟨nds, eds, nts, cps⟩) = none from
        findSomeA_none.mpr (hchk s (List.mem_cons_self s rest))]
      rfl
    have hk := applyS_keys s cps (hkeys s (List.mem_cons_self s rest))
    have h2 := ih (applyS cps s) (by rw [hk]; exact hnd)
      (fun t ht c hc => hchk t (List.mem_cons_of_mem s ht) c hc)
      (fun t ht c hc => by rw [hk]; exact hkeys t (List.mem_cons_of_mem s ht) c hc)
      (fun t1 ht1 t2 ht2 c hc => halign t1 (List.mem_cons_of_mem s ht1)
        t2 (List.mem_cons_of_mem s ht2) c hc)
    have hov : ∀ t ∈ rest, applyS (applyS cps s) t = applyS cps t := fun t ht =>
      applyS_override hnd (hkeys s (List.mem_cons_self s rest))
        (hkeys t (List.mem_cons_of_mem s ht))
        (fun c hc => halign s (List.mem_cons_self s rest) t (List.mem_cons_of_mem s ht) c hc)
    simp only [evalStrategies]
    rw [hadd]
    simp only [exceptBind_ok]
    rw [h2]
    simp only [exceptBind_ok]
    rw [List.map_cons]
    rw [show rest.map (fun t => eu ⟨nds, eds, nts, applyS (applyS cps s) t⟩ ag) =
      rest.map (fun t => eu ⟨nds, eds, nts, applyS cps t⟩ ag) from
      List.map_congr_left (fun t ht => by rw [hov t ht])]

/-- Claim C1, amended: on a diagram surviving re-validation (`copy` is the
identity), with the non-empty decision list owned by one agent,
`optimal_pure_strategies` (i) imputes a uniform-random policy exactly to
the decisions that are not s-reachable from the set AND still carry a
DecisionDomain placeholder, leaving every other CPD unchanged, and then
(ii) returns exactly those enumerated joint pure strategies whose
expected utility for that agent, on the neutralized diagram with the
strategy imputed, equals the maximum over all enumerated joint pure
strategies (ties included). -/
theorem claim_C1_amended (mecf : ν → ν) (eu : MACIDBase ν → ℕ → ℚ) {m : MACIDBase ν}
    {d0 : ν} {drest : List ν} {ag : ℕ}
    (hag : m.whose_node d0 = some ag)
    (hsub : (d0 :: drest) ⊆ decListOf m ag)
    (hcopy : m.copy = .ok m)
    (hdn : ∀ x ∈ m.all_decision_nodes, x ∈ m.nodesL)
    (hwho : ∀ x ∈ (d0 :: drest), (m.whose_node x).isSome = true)
    (hnodk : (m.cpds.map (fun p => p.1)).Nodup)
    (hdecCpd : ∀ d ∈ (d0 :: drest), (m.get_cpds d).isSome = true)
    (hev : ∀ d ∈ (d0 :: drest), ∀ c, m.get_cpds d = some c →
      c.evidence ⊆ m.get_parents d ∧ m.get_parents d ⊆ c.evidence) :
    ∃ cps2 strategies,
      neutralizeAux mecf (d0 :: drest) m m.all_decision_nodes =
        .ok ⟨m.nodesL, m.edges, m.node_types, cps2⟩ ∧
      (∀ v : ν, getA cps2 v =
        if v ∈ m.all_decision_nodes ∧
            m.is_s_reachable mecf (d0 :: drest) v = .ok false ∧
            isDDOpt (m.get_cpds v) = true then
          (m.get_cpds v).map (mkUniformCpd m v)
        else m.get_cpds v) ∧
      MACIDBase.pure_strategies ⟨m.nodesL, m.edges, m.node_types, cps2⟩ (d0 :: drest) =
        .ok strategies ∧
      m.optimal_pure_strategies mecf eu (d0 :: drest) =
        .ok (filterByMax strategies (strategies.map
          (fun t => eu ⟨m.nodesL, m.edges, m.node_types, applyS cps2 t⟩ ag))) ∧
      (∀ s, s ∈ filterByMax strategies (strategies.map
          (fun t => eu ⟨m.nodesL, m.edges, m.node_types, applyS cps2 t⟩ ag)) ↔
        s ∈ strategies ∧ eu ⟨m.nodesL, m.edges, m.node_types, applyS cps2 s⟩ ag =
          maxQ (strategies.map
            (fun t => eu ⟨m.nodesL, m.edges, m.node_types, applyS cps2 t⟩ ag))) := by
  obtain ⟨cps2, hneu, hkeys2, hchar⟩ :=
    neutralizeAux_spec mecf hdn hwho m.all_decision_nodes m.cpds (fun x hx => hx)
      (by unfold MACIDBase.all_decision_nodes; exact List.nodup_dedup _)
      (fun v _ => rfl) (fun v => rfl)
  have hsome2 : ∀ d ∈ (d0 :: drest),
      (MACIDBase.get_cpds ⟨m.nodesL, m.edges, m.node_types, cps2⟩ d).isSome = true := by
    intro d hd
    show (getA cps2 d).isSome = true
    rw [hchar d]
    split
    · obtain ⟨c, hc⟩ := Option.isSome_iff_exists.mp (hdecCpd d hd)
      rw [hc]
      rfl
    · exact hdecCpd d hd
  obtain ⟨rss, hrss⟩ := mapME_rules_ok hsome2
  have hps : MACIDBase.pure_strategies ⟨m.nodesL, m.edges, m.node_types, cps2⟩ (d0 :: drest) =
      .ok (listProd rss) := by
    unfold MACIDBase.pure_strategies
    rw [hrss]
    simp only [exceptBind_ok]
  have hF1 := mapME_ok_forall2 hrss
  have hF2 : List.Forall₂ (fun rs d => ∀ c ∈ rs, c.var = d ∧
      (∀ c0, MACIDBase.get_cpds ⟨m.nodesL, m.edges, m.node_types, cps2⟩ d = some c0 →
        c.evidence = c0.evidence) ∧ isFnK c.kind = true) rss (d0 :: drest) := by
    refine List.Forall₂.imp ?_ hF1
    intro rs d hrs
    obtain ⟨c0, hc0, hprops⟩ := pure_rules_src hrs
    intro c hc
    refine ⟨(hprops c hc).1, ?_, (hprops c hc).2.2.2.2⟩
    intro c0h hc0h
    rw [hc0] at hc0h
    injection hc0h with he
    rw [(hprops c hc).2.1, he]
  have hstr := listProd_forall2 hF2
  have hev2 : ∀ d ∈ (d0 :: drest), ∀ c0,
      getA cps2 d = some c0 →
      c0.evidence ⊆ m.get_parents d ∧ m.get_parents d ⊆ c0.evidence := by
    intro d hd c0 hc0
    rw [hchar d] at hc0
    split at hc0
    · cases hco : m.get_cpds d with
      | none =>
        rw [hco] at hc0
        cases hc0
      | some c1 =>
        rw [hco, Option.map_some'] at hc0
        injection hc0 with he
        rw [← he]
        exact ⟨fun x hx => hx, fun x hx => hx⟩
    · exact hev d hd c0 hc0
  have hnd2 : (cps2.map (fun p => p.1)).Nodup := by
    rw [hkeys2]
    exact hnodk
  have hdkeys : ∀ d ∈ (d0 :: drest), d ∈ cps2.map (fun p => p.1) := by
    intro d hd
    obtain ⟨c0, hc0⟩ := Option.isSome_iff_exists.mp (hsome2 d hd)
    exact getA_mem_keys hc0
  have hchkS : ∀ s ∈ listProd rss, ∀ c ∈ s,
      cpd_check (⟨m.nodesL, m.edges, m.node_types, cps2⟩ : MACIDBase ν) c = none := by
    intro s hs c hc
    obtain ⟨d, hd, hcd⟩ := forall2_mem_left (hstr s hs) c hc
    obtain ⟨hvarc, hevc, hfn⟩ := hcd
    have hdm : d ∈ m.nodesL := hdn d (decListOf_sub_all (hsub hd))
    obtain ⟨c0, hc0⟩ := Option.isSome_iff_exists.mp (hsome2 d hd)
    have hce : c.evidence = c0.evidence := hevc c0 hc0
    have hsame := hev2 d hd c0 hc0
    have hnot3 : ¬ (isFnK c.kind = true ∧
        ¬ (c.evidence ⊆ MACIDBase.get_parents ⟨m.nodesL, m.edges, m.node_types, cps2⟩ c.var ∧
           MACIDBase.get_parents ⟨m.nodesL, m.edges, m.node_types, cps2⟩ c.var ⊆
             c.evidence)) := by
      rintro ⟨-, hbad⟩
      apply hbad
      rw [hvarc, hce]
      exact ⟨hsame.1, hsame.2⟩
    unfold cpd_check
    rw [if_neg (fun hno => hno (show c.var ∈ _ by rw [hvarc]; exact hdm))]
    rw [if_neg (fun hand => (isFnK_ne_dd hfn) hand.1)]
    rw [if_neg hnot3]
  have hkeysS : ∀ s ∈ listProd rss, ∀ c ∈ s, c.var ∈ cps2.map (fun p => p.1) := by
    intro s hs c hc
    obtain ⟨d, hd, hcd⟩ := forall2_mem_left (hstr s hs) c hc
    rw [hcd.1]
    exact hdkeys d hd
  have halignS : ∀ s1 ∈ listProd rss, ∀ s2 ∈ listProd rss, ∀ c ∈ s1,
      ∃ c2 ∈ s2, c2.var = c.var := by
    intro s1 hs1 s2 hs2 c hc
    obtain ⟨d, hd, hcd⟩ := forall2_mem_left (hstr s1 hs1) c hc
    obtain ⟨c2, hc2, hcd2⟩ := forall2_mem_right (hstr s2 hs2) d hd
    exact ⟨c2, hc2, by rw [hcd2.1, hcd.1]⟩
  have heval := evalStrategies_spec eu ag (listProd rss) cps2 hnd2 hchkS hkeysS halignS
  refine ⟨cps2, listProd rss, hneu, (fun v => hchar v), hps, ?_, fun s => filterByMax_mem⟩
  simp only [MACIDBase.optimal_pure_strategies, hag]
  rw [if_pos hsub, hcopy]
  simp only [exceptBind_ok]
  rw [show neutralizeAux mecf (d0 :: drest) m m.all_decision_nodes =
    .ok ⟨m.nodesL, m.edges, m.node_types, cps2⟩ from hneu]
  simp only [exceptBind_ok]
  rw [hps]
  simp only [exceptBind_ok]
  rw [heval]
  simp only [exceptBind_ok]

/-- Claim C1 witness: the amended statement evaluated on the concrete
diagram `exC1`, decision set `[0]`, agent 0 and the constant expected
utility oracle. -/
theorem claim_C1_witness :
    ∃ cps2 strategies,
      neutralizeAux mec100 [0] exC1 exC1.all_decision_nodes =
        .ok ⟨exC1.nodesL, exC1.edges, exC1.node_types, cps2⟩ ∧
      (∀ v : ℕ, getA cps2 v =
        if v ∈ exC1.all_decision_nodes ∧
            exC1.is_s_reachable mec100 [0] v = .ok false ∧
            isDDOpt (exC1.get_cpds v) = true then
          (exC1.get_cpds v).map (mkUniformCpd exC1 v)
        else exC1.get_cpds v) ∧
      MACIDBase.pure_strategies ⟨exC1.nodesL, exC1.edges, exC1.node_types, cps2⟩ [0] =
        .ok strategies ∧
      MACIDBase.optimal_pure_strategies mec100 (fun _ _ => (0 : ℚ)) exC1 [0] =
        .ok (filterByMax strategies (strategies.map (fun _ => (0 : ℚ)))) ∧
      (∀ s, s ∈ filterByMax strategies (strategies.map (fun _ => (0 : ℚ))) ↔
        s ∈ strategies ∧ (0 : ℚ) = maxQ (strategies.map (fun _ => (0 : ℚ)))) :=
  @claim_C1_amended ℕ _ mec100 (fun _ _ => (0 : ℚ)) exC1 0 [] 0
    (by decide) (by decide) (by decide) (by decide) (by decide) (by decide) (by decide)
    (fun d hd c hc => by
      have hd0 : d = 0 := List.mem_singleton.mp hd
      subst hd0
      have hg : exC1.get_cpds 0 = some ⟨0, [0, 1], [], [], CpdKind.dd⟩ := by decide
      rw [hg] at hc
      injection hc with h2
      have hc2 : c = ⟨0, [0, 1], [], [], CpdKind.dd⟩ := h2.symm
      subst hc2
      exact ⟨by decide, by decide⟩)

/-- Claim C2, refuted as stated: the claim gives one characterization for
both `MACIDBase.is_r_reachable` and the `MACID.is_s_reachable` override,
but on `exC2` the two functions disagree at the same query (decision 0,
node 1): the base function applies the descendant-of-D filter to the
candidate utility nodes and returns false, while the override tests an
active trail to every utility node of the agent and returns true. -/
theorem claim_C2_counterexample :
    exC2.is_s_reachable mec100 [0] 1 = .ok false ∧
    Except.map (fun r => r.1) (macid_is_s_reachable 100 exC2 0 1) = .ok true :=
  ⟨by decide, by decide⟩

theorem adjB_comm (E : List (ν × ν)) (a b : ν) : adjB E a b = adjB E b a := by
  unfold adjB
  exact Bool.or_comm _ _

theorem hasEdge_ext_norm {E1 E2 : List (ν × ν)} {N : List ν}
    (h2 : ∀ e ∈ E2, e.1 ∉ N ∧ e.2 ∈ N) {a b : ν} (ha : a ∈ N) :
    hasEdge (E1 ++ E2) a b = hasEdge E1 a b := by
  have hiff : ((a, b) ∈ E1 ++ E2) ↔ ((a, b) ∈ E1) := by
    rw [List.mem_append]
    exact ⟨fun h => h.elim id (fun h2e => absurd ha (h2 _ h2e).1), Or.inl⟩
  unfold hasEdge
  exact decide_eq_decide.mpr hiff

theorem hasEdge_src_unique {E1 E2 : List (ν × ν)} {N : List ν}
    (hE1 : ∀ e ∈ E1, e.1 ∈ N ∧ e.2 ∈ N) (h2 : ∀ e ∈ E2, e.1 ∉ N ∧ e.2 ∈ N)
    (huniq : ∀ e ∈ E2, ∀ f ∈ E2, e.1 = f.1 → e.2 = f.2)
    {s v0 : ν} (hs : s ∉ N) (hsv : (s, v0) ∈ E2) (y : ν) :
    hasEdge (E1 ++ E2) s y = decide (y = v0) := by
  unfold hasEdge
  apply decide_eq_decide.mpr
  constructor
  · intro hmem
    rcases List.mem_append.mp hmem with h | h
    · exact absurd (hE1 _ h).1 hs
    · exact huniq _ h _ hsv rfl
  · intro hy
    subst hy
    exact List.mem_append_right _ hsv

theorem adjB_ext_norm {E1 E2 : List (ν × ν)} {N : List ν}
    (h2 : ∀ e ∈ E2, e.1 ∉ N ∧ e.2 ∈ N) {a b : ν} (ha : a ∈ N) (hb : b ∈ N) :
    adjB (E1 ++ E2) a b = adjB E1 a b := by
  unfold adjB
  rw [hasEdge_ext_norm h2 ha, hasEdge_ext_norm h2 hb]

theorem adj_src_mem {E1 E2 : List (ν × ν)} {N : List ν}
    (hE1 : ∀ e ∈ E1, e.1 ∈ N ∧ e.2 ∈ N) (h2 : ∀ e ∈ E2, e.1 ∉ N ∧ e.2 ∈ N)
    {s b : ν} (hs : s ∉ N) (hadj : adjB (E1 ++ E2) s b = true) : (s, b) ∈ E2 := by
  rw [adjB, Bool.or_eq_true, hasEdge, hasEdge, decide_eq_true_eq, decide_eq_true_eq,
    List.mem_append, List.mem_append] at hadj
  rcases hadj with (h | h) | (h | h)
  · exact absurd (hE1 _ h).1 hs
  · exact h
  · exact absurd (hE1 _ h).2 hs
  · exact absurd (h2 _ h).2 hs

theorem stepPath_dir_restrict {E1 E2 : List (ν × ν)} {N : List ν}
    (hE1 : ∀ e ∈ E1, e.1 ∈ N ∧ e.2 ∈ N) (h2 : ∀ e ∈ E2, e.1 ∉ N) :
    ∀ {b z : ν} {p : List ν}, StepPath (hasEdge (E1 ++ E2)) b z p → b ∈ N →
      StepPath (hasEdge E1) b z p := by
  intro b z p hp
  induction hp with
  | single a => intro _; exact StepPath.single a
  | @cons a b c q hs hq hn ih =>
    intro ha
    rw [hasEdge, decide_eq_true_eq, List.mem_append] at hs
    rcases hs with h | h
    · exact StepPath.cons (by rw [hasEdge, decide_eq_true_eq]; exact h) (ih (hE1 _ h).2) hn
    · exact absurd ha (h2 _ h)

theorem stepPath_dir_extend {E1 E2 : List (ν × ν)} :
    ∀ {b z : ν} {p : List ν}, StepPath (hasEdge E1) b z p →
      StepPath (hasEdge (E1 ++ E2)) b z p := by
  intro b z p hp
  induction hp with
  | single a => exact StepPath.single a
  | @cons a b c q hs hq hn ih =>
    refine StepPath.cons ?_ ih hn
    rw [hasEdge, decide_eq_true_eq] at hs ⊢
    exact List.mem_append_left _ hs

theorem reachesB_graph_ext {E1 E2 : List (ν × ν)} {N N2 : List ν}
    (hE1 : ∀ e ∈ E1, e.1 ∈ N ∧ e.2 ∈ N) (h2 : ∀ e ∈ E2, e.1 ∉ N ∧ e.2 ∈ N)
    {b z : ν} (hb : b ∈ N) :
    reachesB (E1 ++ E2) (N ++ N2) b z = reachesB E1 N b z := by
  rw [Bool.eq_iff_iff,
    reachesB_iff (fun e he => (List.mem_append.mp he).elim
      (fun h => List.mem_append_left _ (hE1 e h).2)
      (fun h => List.mem_append_left _ (h2 e h).2)),
    reachesB_iff (fun e he => (hE1 e he).2)]
  constructor
  · rintro ⟨p, hp⟩
    exact ⟨p, stepPath_dir_restrict hE1 (fun e he => (h2 e he).1) hp hb⟩
  · rintro ⟨p, hp⟩
    exact ⟨p, stepPath_dir_extend hp⟩

theorem anzB_graph_ext {E1 E2 : List (ν × ν)} {N N2 Z : List ν}
    (hE1 : ∀ e ∈ E1, e.1 ∈ N ∧ e.2 ∈ N) (h2 : ∀ e ∈ E2, e.1 ∉ N ∧ e.2 ∈ N)
    {b : ν} (hb : b ∈ N) :
    anzB (E1 ++ E2) (N ++ N2) Z b = anzB E1 N Z b := by
  unfold anzB
  congr 1
  funext z
  exact reachesB_graph_ext hE1 h2 hb

theorem activeListB_congr {Ea Eb : List (ν × ν)} {anza anzb zmem : ν → Bool} :
    ∀ {p : List ν},
      (∀ x ∈ p, ∀ y ∈ p.tail, hasEdge Ea x y = hasEdge Eb x y) →
      (∀ x ∈ p.tail, anza x = anzb x) →
      activeListB Ea anza zmem p = activeListB Eb anzb zmem p := by
  intro p
  induction p with
  | nil => intro _ _; rfl
  | cons a q ih =>
    intro hE hanz
    cases q with
    | nil => rfl
    | cons b q2 =>
      cases q2 with
      | nil => rfl
      | cons c rest =>
        show (interiorOKB Ea anza zmem a b c &&
            activeListB Ea anza zmem (b :: c :: rest)) = _
        rw [show activeListB Eb anzb zmem (a :: b :: c :: rest) =
          (interiorOKB Eb anzb zmem a b c &&
            activeListB Eb anzb zmem (b :: c :: rest)) from rfl]
        congr 1
        · unfold interiorOKB
          rw [hE a (List.mem_cons_self a (b :: c :: rest)) b (List.mem_cons_self b (c :: rest)),
            hE c (List.mem_cons_of_mem a (List.mem_cons_of_mem b (List.mem_cons_self c rest)))
              b (List.mem_cons_self b (c :: rest)),
            hanz b (List.mem_cons_self b (c :: rest))]
        · exact ih
            (fun x hx y hy => hE x (List.mem_cons_of_mem a hx) y (List.mem_cons_of_mem b hy))
            (fun x hx => hanz x (List.mem_cons_of_mem b hx))

theorem stepPath_ext_normal {E1 E2 : List (ν × ν)} {N : List ν}
    (hE1 : ∀ e ∈ E1, e.1 ∈ N ∧ e.2 ∈ N) (h2 : ∀ e ∈ E2, e.1 ∉ N ∧ e.2 ∈ N)
    (huniq : ∀ e ∈ E2, ∀ f ∈ E2, e.1 = f.1 → e.2 = f.2) :
    ∀ {a u : ν} {p : List ν}, StepPath (adjB (E1 ++ E2)) a u p → a ∈ N → u ∈ N →
      ∀ x ∈ p, x ∈ N := by
  intro a u p hp
  induction hp with
  | single a =>
    intro ha _ x hx
    rw [List.mem_singleton.mp hx]
    exact ha
  | @cons a b c q hs hq hn ih =>
    intro ha hc x hx
    by_cases hb : b ∈ N
    · rcases List.mem_cons.mp hx with h1 | h2x
      · rw [h1]; exact ha
      · exact ih hb hc x h2x
    · exfalso
      have hba : (b, a) ∈ E2 := adj_src_mem hE1 h2 hb (by rw [adjB_comm]; exact hs)
      cases hq with
      | single => exact hb hc
      | @cons _ b2 _ q2 hs2 hq2 hn2 =>
        have hbc2 : (b, b2) ∈ E2 := adj_src_mem hE1 h2 hb hs2
        have hb2a : b2 = a := huniq _ hbc2 _ hba rfl
        obtain ⟨q3, hq3⟩ := hq2.head_shape
        apply hn
        refine List.mem_cons_of_mem b ?_
        rw [hq3, ← hb2a]
        exact List.mem_cons_self b2 q3

theorem stepPath_ext_shape {E1 E2 : List (ν × ν)} {N : List ν}
    (hE1 : ∀ e ∈ E1, e.1 ∈ N ∧ e.2 ∈ N) (h2 : ∀ e ∈ E2, e.1 ∉ N ∧ e.2 ∈ N)
    (huniq : ∀ e ∈ E2, ∀ f ∈ E2, e.1 = f.1 → e.2 = f.2)
    {s v0 u : ν} {p : List ν} (hs : s ∉ N) (hsv : (s, v0) ∈ E2) (hu : u ∈ N)
    (hp : StepPath (adjB (E1 ++ E2)) s u p) :
    ∃ q, p = s :: q ∧ StepPath (adjB (E1 ++ E2)) v0 u q ∧ s ∉ q ∧ ∀ x ∈ q, x ∈ N := by
  cases hp with
  | single => exact absurd hu hs
  | @cons _ b _ q hs2 hq hn =>
    have hsb : (s, b) ∈ E2 := adj_src_mem hE1 h2 hs hs2
    have hbv : b = v0 := huniq _ hsb _ hsv rfl
    subst hbv
    exact ⟨q, rfl, hq, hn,
      stepPath_ext_normal hE1 h2 huniq hq (h2 _ hsv).2 hu⟩

theorem stepPath_adj_restrict {E1 E2 : List (ν × ν)} {N : List ν}
    (h2 : ∀ e ∈ E2, e.1 ∉ N ∧ e.2 ∈ N) :
    ∀ {a u : ν} {p : List ν}, StepPath (adjB (E1 ++ E2)) a u p → (∀ x ∈ p, x ∈ N) →
      StepPath (adjB E1) a u p := by
  intro a u p hp
  induction hp with
  | single a => intro _; exact StepPath.single a
  | @cons a b c q hs hq hn ih =>
    intro hall
    obtain ⟨q2, hq2⟩ := hq.head_shape
    have hb : b ∈ N := hall b (List.mem_cons_of_mem a
      (by rw [hq2]; exact List.mem_cons_self b q2))
    have ha : a ∈ N := hall a (List.mem_cons_self a q)
    refine StepPath.cons ?_ (ih (fun x hx => hall x (List.mem_cons_of_mem a hx))) hn
    rw [← adjB_ext_norm h2 ha hb]
    exact hs

theorem stepPath_adj_extend {E1 E2 : List (ν × ν)} :
    ∀ {a u : ν} {p : List ν}, StepPath (adjB E1) a u p →
      StepPath (adjB (E1 ++ E2)) a u p := by
  intro a u p hp
  induction hp with
  | single a => exact StepPath.single a
  | @cons a b c q hs hq hn ih =>
    refine StepPath.cons ?_ ih hn
    rw [adjB, Bool.or_eq_true] at hs ⊢
    rcases hs with h | h
    · refine Or.inl ?_
      rw [hasEdge, decide_eq_true_eq] at h ⊢
      exact List.mem_append_left _ h
    · refine Or.inr ?_
      rw [hasEdge, decide_eq_true_eq] at h ⊢
      exact List.mem_append_left _ h

theorem mg_trail_transfer (mecf : ν → ν) {m : MACIDBase ν}
    (hfresh : ∀ n ∈ m.nodesL, mecf n ∉ m.nodesL)
    (hinj : ∀ a ∈ m.nodesL, ∀ b ∈ m.nodesL, mecf a = mecf b → a = b)
    (hwf : ∀ e ∈ m.edges, e.1 ∈ m.nodesL ∧ e.2 ∈ m.nodesL)
    {v u : ν} (hv : v ∈ m.nodesL) (hu : u ∈ m.nodesL) (Z : List ν) :
    is_active_trail (mechanismGraph mecf m).edges (mechanismGraph mecf m).nodesL
        (mecf v) u Z = true ↔
      ActiveConn (m.edges ++ [(mecf v, v)]) (m.nodesL ++ [mecf v]) Z (mecf v) u := by
  have h2mg : ∀ e ∈ m.nodesL.map (fun n => ((mecf n, n) : ν × ν)),
      e.1 ∉ m.nodesL ∧ e.2 ∈ m.nodesL := by
    intro e he
    rcases List.mem_map.mp he with ⟨n, hn, hne⟩
    subst hne
    exact ⟨hfresh n hn, hn⟩
  have huniqmg : ∀ e ∈ m.nodesL.map (fun n => ((mecf n, n) : ν × ν)),
      ∀ f ∈ m.nodesL.map (fun n => ((mecf n, n) : ν × ν)), e.1 = f.1 → e.2 = f.2 := by
    intro e he f hf h1
    rcases List.mem_map.mp he with ⟨n, hn, hne⟩
    rcases List.mem_map.mp hf with ⟨k, hk, hkf⟩
    subst hne
    subst hkf
    exact hinj n hn k hk h1
  have h2sp : ∀ e ∈ ([((mecf v, v) : ν × ν)]), e.1 ∉ m.nodesL ∧ e.2 ∈ m.nodesL := by
    intro e he
    rw [List.mem_singleton.mp he]
    exact ⟨hfresh v hv, hv⟩
  have huniqsp : ∀ e ∈ ([((mecf v, v) : ν × ν)]), ∀ f ∈ ([((mecf v, v) : ν × ν)]),
      e.1 = f.1 → e.2 = f.2 := by
    intro e he f hf _
    rw [List.mem_singleton.mp he, List.mem_singleton.mp hf]
  have hsvmg : ((mecf v, v) : ν × ν) ∈ m.nodesL.map (fun n => ((mecf n, n) : ν × ν)) :=
    List.mem_map_of_mem _ hv
  have hsvsp : ((mecf v, v) : ν × ν) ∈ [((mecf v, v) : ν × ν)] :=
    List.mem_singleton.mpr rfl
  have hmv : mecf v ∉ m.nodesL := hfresh v hv
  rw [is_active_trail_iff]
  show ActiveConn (m.edges ++ m.nodesL.map (fun n => (mecf n, n)))
      (m.nodesL ++ m.nodesL.map mecf) Z (mecf v) u ↔
    ActiveConn (m.edges ++ [(mecf v, v)]) (m.nodesL ++ [mecf v]) Z (mecf v) u
  unfold ActiveConn
  constructor
  · rintro ⟨p, hp, htail, hact⟩
    obtain ⟨q, hpq, hq, hsq, hqN⟩ := stepPath_ext_shape hwf h2mg huniqmg hmv hsvmg hu hp
    subst hpq
    have hEeq : ∀ x ∈ mecf v :: q, ∀ y ∈ (mecf v :: q).tail,
        hasEdge (m.edges ++ [(mecf v, v)]) x y =
        hasEdge (m.edges ++ m.nodesL.map (fun n => (mecf n, n))) x y := by
      intro x hx y hy
      rcases List.mem_cons.mp hx with h1 | h2x
      · subst h1
        rw [hasEdge_src_unique hwf h2sp huniqsp hmv hsvsp y,
          hasEdge_src_unique hwf h2mg huniqmg hmv hsvmg y]
      · rw [hasEdge_ext_norm h2sp (hqN x h2x), hasEdge_ext_norm h2mg (hqN x h2x)]
    have hanzeq : ∀ x ∈ (mecf v :: q).tail,
        anzB (m.edges ++ [(mecf v, v)]) (m.nodesL ++ [mecf v]) Z x =
        anzB (m.edges ++ m.nodesL.map (fun n => (mecf n, n)))
          (m.nodesL ++ m.nodesL.map mecf) Z x := by
      intro x hx
      rw [anzB_graph_ext hwf h2sp (hqN x hx), anzB_graph_ext hwf h2mg (hqN x hx)]
    refine ⟨mecf v :: q, ?_, ?_, ?_⟩
    · refine StepPath.cons ?_ (stepPath_adj_extend (stepPath_adj_restrict h2mg hq hqN)) hsq
      rw [adjB, Bool.or_eq_true]
      refine Or.inl ?_
      rw [hasEdge, decide_eq_true_eq]
      exact List.mem_append_right _ hsvsp
    · intro x hx
      exact List.mem_append_left _ (hqN x hx)
    · rw [activeListB_congr hEeq hanzeq]
      exact hact
  · rintro ⟨p, hp, htail, hact⟩
    obtain ⟨q, hpq, hq, hsq, hqN⟩ := stepPath_ext_shape hwf h2sp huniqsp hmv hsvsp hu hp
    subst hpq
    have hEeq : ∀ x ∈ mecf v :: q, ∀ y ∈ (mecf v :: q).tail,
        hasEdge (m.edges ++ m.nodesL.map (fun n => (mecf n, n))) x y =
        hasEdge (m.edges ++ [(mecf v, v)]) x y := by
      intro x hx y hy
      rcases List.mem_cons.mp hx with h1 | h2x
      · subst h1
        rw [hasEdge_src_unique hwf h2mg huniqmg hmv hsvmg y,
          hasEdge_src_unique hwf h2sp huniqsp hmv hsvsp y]
      · rw [hasEdge_ext_norm h2mg (hqN x h2x), hasEdge_ext_norm h2sp (hqN x h2x)]
    have hanzeq : ∀ x ∈ (mecf v :: q).tail,
        anzB (m.edges ++ m.nodesL.map (fun n => (mecf n, n)))
          (m.nodesL ++ m.nodesL.map mecf) Z x =
        anzB (m.edges ++ [(mecf v, v)]) (m.nodesL ++ [mecf v]) Z x := by
      intro x hx
      rw [anzB_graph_ext hwf h2mg (hqN x hx), anzB_graph_ext hwf h2sp (hqN x hx)]
    refine ⟨mecf v :: q, ?_, ?_, ?_⟩
    · refine StepPath.cons ?_ (stepPath_adj_extend (stepPath_adj_restrict h2sp hq hqN)) hsq
      rw [adjB, Bool.or_eq_true]
      refine Or.inl ?_
      rw [hasEdge, decide_eq_true_eq]
      exact List.mem_append_right _ hsvmg
    · intro x hx
      exact List.mem_append_left _ (hqN x hx)
    · rw [activeListB_congr hEeq hanzeq]
      exact hact

theorem whose_node_mem_agents {m : MACIDBase ν} {d : ν} {ag : ℕ}
    (h : m.whose_node d = some ag) : ag ∈ m.agents := by
  unfold MACIDBase.whose_node at h
  exact List.mem_reverse.mp (List.mem_of_find?_eq_some h)

theorem rReachAux_true_iff (mecf : ν → ν) {m : MACIDBase ν} {nodes : List ν}
    (hfresh : ∀ n ∈ m.nodesL, mecf n ∉ m.nodesL)
    (hinj : ∀ a ∈ m.nodesL, ∀ b ∈ m.nodesL, mecf a = mecf b → a = b)
    (hwf : ∀ e ∈ m.edges, e.1 ∈ m.nodesL ∧ e.2 ∈ m.nodesL)
    (hnodes : ∀ v ∈ nodes, v ∈ m.nodesL)
    (hutl : ∀ a ∈ m.agents, ∀ u ∈ utilListOf m a, u ∈ m.nodesL) :
    ∀ {ds : List ν}, (∀ d ∈ ds, (m.whose_node d).isSome = true) →
      (rReachAux mecf m.structOnly (mechanismGraph mecf m) nodes ds = .ok true ↔
        RReachSpec mecf m ds nodes) := by
  intro ds
  induction ds with
  | nil =>
    intro _
    unfold RReachSpec
    constructor
    · intro h
      injection h with h2
      cases h2
    · rintro ⟨d, hd, -⟩
      cases hd
  | cons d ds ih =>
    intro hwho
    obtain ⟨ag, hag⟩ := Option.isSome_iff_exists.mp (hwho d (List.mem_cons_self d ds))
    have hag' : (MACIDBase.structOnly m).whose_node d = some ag := hag
    rw [rReachAux_cons hag']
    have hcond : (nodes.any (fun v => ((utilListOf m.structOnly ag).filter
          (fun u => decide (u ≠ d) &&
            reachesB m.structOnly.edges m.structOnly.nodesL d u)).any
          (fun u => is_active_trail (mechanismGraph mecf m).edges
            (mechanismGraph mecf m).nodesL (mecf v)
            u (d :: m.structOnly.get_parents d)))) = true ↔
        (∃ v ∈ nodes, ∃ u ∈ utilListOf m ag, u ≠ d ∧
          reachesB m.edges m.nodesL d u = true ∧
          ActiveConn (m.edges ++ [(mecf v, v)]) (m.nodesL ++ [mecf v])
            (d :: m.get_parents d) (mecf v) u) := by
      rw [List.any_eq_true]
      constructor
      · rintro ⟨v, hv, hvany⟩
        rw [List.any_eq_true] at hvany
        obtain ⟨u, hu, htrail⟩ := hvany
        rw [List.mem_filter] at hu
        obtain ⟨humem, hucond⟩ := hu
        rw [Bool.and_eq_true, decide_eq_true_eq] at hucond
        have hun : u ∈ m.nodesL := hutl ag (whose_node_mem_agents hag) u humem
        exact ⟨v, hv, u, humem, hucond.1, hucond.2,
          (mg_trail_transfer mecf hfresh hinj hwf (hnodes v hv) hun _).mp htrail⟩
      · rintro ⟨v, hv, u, hu, hne, hreach, hconn⟩
        refine ⟨v, hv, ?_⟩
        rw [List.any_eq_true]
        have hun : u ∈ m.nodesL := hutl ag (whose_node_mem_agents hag) u hu
        refine ⟨u, ?_, ?_⟩
        · rw [List.mem_filter]
          refine ⟨hu, ?_⟩
          rw [Bool.and_eq_true, decide_eq_true_eq]
          exact ⟨hne, hreach⟩
        · exact (mg_trail_transfer mecf hfresh hinj hwf (hnodes v hv) hun _).mpr hconn
    by_cases hex : (∃ v ∈ nodes, ∃ u ∈ utilListOf m ag, u ≠ d ∧
        reachesB m.edges m.nodesL d u = true ∧
        ActiveConn (m.edges ++ [(mecf v, v)]) (m.nodesL ++ [mecf v])
          (d :: m.get_parents d) (mecf v) u)
    · rw [if_pos (hcond.mpr hex)]
      unfold RReachSpec
      constructor
      · intro _
        exact ⟨d, List.mem_cons_self d ds, ag, hag, hex⟩
      · intro _
        rfl
    · rw [if_neg (fun hc => hex (hcond.mp hc))]
      rw [ih (fun x hx => hwho x (List.mem_cons_of_mem d hx))]
      unfold RReachSpec
      constructor
      · rintro ⟨d2, hd2, hrest⟩
        exact ⟨d2, List.mem_cons_of_mem d hd2, hrest⟩
      · rintro ⟨d2, hd2, ag2, hag2, hrest⟩
        rcases List.mem_cons.mp hd2 with h1 | h2
        · subst h1
          rw [hag] at hag2
          injection hag2 with he
          subst he
          exact absurd hrest hex
        · exact ⟨d2, h2, ag2, hag2, hrest⟩

/-- Claim C2, amended: under freshness and injectivity of the mechanism
tag and well-formed edges, `MACIDBase.is_r_reachable` (and
`is_s_reachable` on decision targets) returns true exactly when some
decision D in the set and node V in the set admit an active path from a
single hypothetical new parent of V to a utility node of D's owner that
is a descendant of D, conditioning on D and its parents — the claim as
stated; whereas the `MACID.is_s_reachable` override returns true exactly
when the temporary parent of d2 has an active path to ANY utility node
of d1's owner (no descendant-of-d1 restriction), conditioning on d1 and
its post-insertion parents. -/
theorem claim_C2 (mecf : ν → ν) {m : MACIDBase ν} {decisions nodes : List ν}
    (hfresh : ∀ n ∈ m.nodesL, mecf n ∉ m.nodesL)
    (hinj : ∀ a ∈ m.nodesL, ∀ b ∈ m.nodesL, mecf a = mecf b → a = b)
    (hwf : ∀ e ∈ m.edges, e.1 ∈ m.nodesL ∧ e.2 ∈ m.nodesL)
    (hnodes : ∀ v ∈ nodes, v ∈ m.nodesL)
    (hutl : ∀ a ∈ m.agents, ∀ u ∈ utilListOf m a, u ∈ m.nodesL)
    (hwho : ∀ d ∈ decisions, (m.whose_node d).isSome = true)
    (hdn : ∀ x ∈ m.all_decision_nodes, x ∈ m.nodesL)
    (hcpd : ∀ p ∈ m.cpds, p.1 ∈ m.nodesL)
    (hvar : ∀ p ∈ m.cpds, p.2.var = p.1) :
    (m.is_r_reachable mecf decisions nodes = .ok true ↔
      RReachSpec mecf m decisions nodes) ∧
    (∀ d2 ∈ m.all_decision_nodes,
      (m.is_s_reachable mecf decisions d2 = .ok true ↔
        RReachSpec mecf m decisions [d2])) ∧
    (∀ tempPar d1 d2 ag, tempPar ∉ m.nodesL → d2 ∈ m.nodesL →
      m.whose_node d1 = some ag →
      (macid_sreach tempPar m d1 d2 = true ↔
        ∃ u ∈ utilListOf m ag,
          ActiveConn (m.edges ++ [(tempPar, d2)]) (m.nodesL ++ [tempPar])
            (d1 :: ((m.edges ++ [(tempPar, d2)]).filter
              (fun e => decide (e.2 = d1))).map (fun e => e.1)) tempPar u)) := by
  refine ⟨?_, ?_, ?_⟩
  · exact rReachAux_true_iff mecf hfresh hinj hwf hnodes hutl hwho
  · intro d2 hd2
    unfold MACIDBase.is_s_reachable
    rw [if_pos hd2]
    exact rReachAux_true_iff mecf hfresh hinj hwf
      (fun v hv => by rw [List.mem_singleton.mp hv]; exact hdn d2 hd2) hutl hwho
  · intro tempPar d1 d2 ag htp hd2 hagw
    rw [macid_sreach_eq_val htp hwf hcpd hvar hd2 hagw]
    unfold macid_sreach_val
    rw [List.any_eq_true]
    constructor
    · rintro ⟨u, hu, htr⟩
      exact ⟨u, hu, is_active_trail_iff.mp htr⟩
    · rintro ⟨u, hu, hconn⟩
      exact ⟨u, hu, is_active_trail_iff.mpr hconn⟩

/-- Claim C2 witness: the amended characterization evaluated on the
concrete diagram `exC2` with decision set `[0]` and node set `[1]`. -/
theorem claim_C2_witness :
    (exC2.is_r_reachable mec100 [0] [1] = .ok true ↔ RReachSpec mec100 exC2 [0] [1]) ∧
    (∀ d2 ∈ exC2.all_decision_nodes,
      (exC2.is_s_reachable mec100 [0] d2 = .ok true ↔
        RReachSpec mec100 exC2 [0] [d2])) ∧
    (∀ tempPar d1 d2 ag, tempPar ∉ exC2.nodesL → d2 ∈ exC2.nodesL →
      exC2.whose_node d1 = some ag →
      (macid_sreach tempPar exC2 d1 d2 = true ↔
        ∃ u ∈ utilListOf exC2 ag,
          ActiveConn (exC2.edges ++ [(tempPar, d2)]) (exC2.nodesL ++ [tempPar])
            (d1 :: ((exC2.edges ++ [(tempPar, d2)]).filter
              (fun e => decide (e.2 = d1))).map (fun e => e.1)) tempPar u)) :=
  @claim_C2 ℕ _ mec100 exC2 [0] [1] (by decide) (by decide) (by decide) (by decide)
    (by decide) (by decide) (by decide) (by decide) (by decide)

end PycidV
